import Mathlib

/-!
# Verification of the Relay expression functor core (`src/relay/ir/expr_functor.cc`)

This development shallowly embeds the two traversal classes of the file:

* `ExprMutator` — a memoized copy-on-write rewriter over the Relay expression IR
  (`mutate`, `mutateKind`, `mutateList`, `mutateParams` below), and
* `ExprVisitor` — a deduplicating read-only walker (`visit`, `visitKind`, `visitList`).

Expression nodes are immutable objects compared by reference identity in the C++
source.  Here every node carries an explicit identity tag `eid : Nat`; a handle to an
object is modelled by the tagged subtree, and the C++ `same_as` (pointer equality)
becomes equality of identity tags.  A well-formedness predicate `WfDag` states that
identity tags determine nodes (two subterms with the same tag are the same node),
which is exactly what holds for pointers into an acyclic object graph.  Freshly
allocated nodes (the `XNode::make` calls of the rewrite handlers) draw an identity
from a monotone counter held in the mutator state.

Types (`tvm::Type`) are opaque handles at this boundary: they are modelled as bare
identity tags (`Ty := Nat`); the type hook `VisitType` defaults to the identity
function and is modelled as an arbitrary function parameter `vt`, with every hook
invocation recorded in a log (`tlog`).

Subclass handler overrides are modelled by a non-recursive override table
`ov : Expr → Option Expr`: `ov e = some r` means the pass overrides the kind-specific
handler at `e` and returns `r`; `ov e = none` means the base-class default handler
(the code of this file) runs.  The aborting `Downcast<Var>` of the C++ source is
modelled by `Except.error`.
-/

set_option autoImplicit false

namespace TvmRelay

/-- Opaque type-expression handle; only its identity matters to this file. -/
abbrev Ty := Nat

/-- The Relay expression IR, as used by `expr_functor.cc`.  Every node carries its
reference identity as an explicit `Nat` tag (first argument).  `function` also
carries the identities of its `type_params` and `params` array containers
(`tyAid`, `pAid`), because the source compares those two arrays by reference
identity; `none` stands for a freshly allocated array object, which is
identity-distinct from every previously existing array. -/
inductive Expr : Type where
  | var (id : Nat) (nameHint : String) (ann : Option Ty)
  | constant (id : Nat)
  | globalVar (id : Nat)
  | op (id : Nat)
  | tuple (id : Nat) (fields : List Expr)
  | function (id : Nat) (tyAid : Option Nat) (tyParams : List Ty)
      (pAid : Option Nat) (params : List Expr) (retTy : Ty) (body : Expr) (attrs : Nat)
  | call (id : Nat) (callee : Expr) (tyArgs : List Ty) (args : List Expr) (attrs : Nat)
  | letE (id : Nat) (lvar : Expr) (value : Expr) (body : Expr)
  | ifE (id : Nat) (cond : Expr) (trueB : Expr) (falseB : Expr)
  | tupleGetItem (id : Nat) (tup : Expr) (index : Nat)

/-- The reference identity of a node (the address of the underlying object). -/
def Expr.eid : Expr → Nat
  | .var i _ _ => i
  | .constant i => i
  | .globalVar i => i
  | .op i => i
  | .tuple i _ => i
  | .function i _ _ _ _ _ _ _ => i
  | .call i _ _ _ _ => i
  | .letE i _ _ _ => i
  | .ifE i _ _ _ => i
  | .tupleGetItem i _ _ => i

/-- `ObjectRef::same_as` / `operator==` on expression handles: pointer equality. -/
def Expr.sameAs (a b : Expr) : Bool := a.eid == b.eid

/-- Whether the node is a `VarNode` (the check performed by `Downcast<Var>`). -/
def Expr.isVar : Expr → Bool
  | .var _ _ _ => true
  | _ => false

/-- `Array::same_as`: pointer equality of the underlying array containers.
`none` is a freshly allocated container, identity-distinct from everything that
the handlers compare it against. -/
def arraySameAs : Option Nat → Option Nat → Bool
  | some i, some j => i == j
  | _, _ => false

/-- The elementwise unchanged-check accumulated by the rewrite loops:
`all_fields_unchanged &= new_field.same_as(field)`. -/
def allSame (news olds : List Expr) : Bool :=
  (news.zip olds).all fun p => p.1.sameAs p.2

/-- The elementwise unchanged-check for type arguments. -/
def allSameTy (news olds : List Ty) : Bool :=
  (news.zip olds).all fun p => p.1 == p.2

/-- State of one `ExprMutator` instance: the memo cache `memo_` (association list,
newest binding first, keyed by the identity of the *original* node), the fresh
identity counter for node allocation, a chronological log of the nodes whose
kind-specific rewrite was computed (instrumentation of `VisitExpr_` completions),
and a chronological log of the types passed to the `VisitType` hook. -/
structure MState where
  memo : List (Nat × Expr)
  fresh : Nat
  log : List Expr
  tlog : List Ty

/-- `memo_.find(expr)`, keyed by identity. -/
def lookupMemo (k : Nat) : List (Nat × Expr) → Option Expr
  | [] => none
  | (k', v) :: rest => if k = k' then some v else lookupMemo k rest

/-- `memo_[expr] = new_expr` together with the instrumentation log append. -/
def record (e r : Expr) (s : MState) : MState :=
  { s with memo := (e.eid, r) :: s.memo, log := s.log ++ [e] }

/-- Allocate one fresh node identity. -/
def bumpFresh (s : MState) : MState := { s with fresh := s.fresh + 1 }

/-- One invocation of the `VisitType` hook `vt`, recorded in the hook log. -/
def visitTypeM (vt : Ty → Ty) (t : Ty) (s : MState) : Ty × MState :=
  (vt t, { s with tlog := s.tlog ++ [t] })

/-- The hook applied pointwise to a list of types (type params / type args loops). -/
def visitTypeListM (vt : Ty → Ty) : List Ty → MState → List Ty × MState
  | [], s => ([], s)
  | t :: ts, s =>
    let p := visitTypeM vt t s
    let q := visitTypeListM vt ts p.2
    (p.1 :: q.1, q.2)

mutual

/-- `ExprMutator::VisitExpr` (the `Mutate` entry point): consult the memo cache by
identity; on a hit return the cached rewrite with no further work; on a miss
dispatch to the (possibly overridden) kind-specific handler and store the result
keyed by the original node's identity. -/
def mutate (ov : Expr → Option Expr) (vt : Ty → Ty) (e : Expr) (s : MState) :
    Except String (Expr × MState) :=
  match lookupMemo e.eid s.memo with
  | some r => .ok (r, s)
  | none =>
    match ov e with
    | some r => .ok (r, record e r s)
    | none =>
      match mutateKind ov vt e s with
      | .error msg => .error msg
      | .ok (r, s₁) => .ok (r, record e r s₁)
termination_by (sizeOf e, 1)

/-- The default kind-specific rewrite handlers `ExprMutator::VisitExpr_`, one match
arm per node kind, in source order and with the source's traversal order,
unchanged-checks and rebuild calls. -/
def mutateKind (ov : Expr → Option Expr) (vt : Ty → Ty) (e : Expr) (s : MState) :
    Except String (Expr × MState) :=
  match e with
  | .var _ nm ann =>
    match ann with
    | some t =>
      let p := visitTypeM vt t s
      if p.1 == t then .ok (e, p.2)
      else .ok (.var p.2.fresh nm (some p.1), bumpFresh p.2)
    | none => .ok (e, s)
  | .constant _ => .ok (e, s)
  | .globalVar _ => .ok (e, s)
  | .op _ => .ok (e, s)
  | .tuple _ fields =>
    match mutateList ov vt fields s with
    | .error msg => .error msg
    | .ok (fields', s₁) =>
      if allSame fields' fields then .ok (e, s₁)
      else .ok (.tuple s₁.fresh fields', bumpFresh s₁)
  | .function _ tyAid tyPs pAid ps rty body attrs =>
    -- the Downcast<TypeVar> of the source is not modelled: types are opaque here
    let q := visitTypeListM vt tyPs s
    match mutateParams ov vt ps q.2 with
    | .error msg => .error msg
    | .ok (ps', s₂) =>
      let r := visitTypeM vt rty s₂
      match mutate ov vt body r.2 with
      | .error msg => .error msg
      | .ok (body', s₄) =>
        -- the source compares the freshly built arrays to the originals by
        -- container identity (`ty_params.same_as(op->type_params)` etc.); the
        -- computed elementwise flags are dead variables there
        if arraySameAs none tyAid && arraySameAs none pAid &&
            (r.1 == rty) && body'.sameAs body then
          .ok (e, s₄)
        else
          .ok (.function s₄.fresh none q.1 none ps' r.1 body' attrs, bumpFresh s₄)
  | .call _ callee tyArgs args attrs =>
    match mutate ov vt callee s with
    | .error msg => .error msg
    | .ok (callee', s₁) =>
      let q := visitTypeListM vt tyArgs s₁
      match mutateList ov vt args q.2 with
      | .error msg => .error msg
      | .ok (args', s₃) =>
        if callee'.sameAs callee && allSameTy q.1 tyArgs && allSame args' args then
          .ok (e, s₃)
        else
          .ok (.call s₃.fresh callee' q.1 args' attrs, bumpFresh s₃)
  | .letE _ lv value body =>
    match mutate ov vt lv s with
    | .error msg => .error msg
    | .ok (lv', s₁) =>
      if lv'.isVar = false then .error "Downcast to Var failed"
      else
        match mutate ov vt value s₁ with
        | .error msg => .error msg
        | .ok (value', s₂) =>
          match mutate ov vt body s₂ with
          | .error msg => .error msg
          | .ok (body', s₃) =>
            if lv'.sameAs lv && value'.sameAs value && body'.sameAs body then
              .ok (e, s₃)
            else .ok (.letE s₃.fresh lv' value' body', bumpFresh s₃)
  | .ifE _ c tb fb =>
    match mutate ov vt c s with
    | .error msg => .error msg
    | .ok (c', s₁) =>
      match mutate ov vt tb s₁ with
      | .error msg => .error msg
      | .ok (tb', s₂) =>
        match mutate ov vt fb s₂ with
        | .error msg => .error msg
        | .ok (fb', s₃) =>
          if c.sameAs c' && tb.sameAs tb' && fb.sameAs fb' then .ok (e, s₃)
          else .ok (.ifE s₃.fresh c' tb' fb', bumpFresh s₃)
  | .tupleGetItem _ tup idx =>
    match mutate ov vt tup s with
    | .error msg => .error msg
    | .ok (t', s₁) =>
      if tup.sameAs t' then .ok (e, s₁)
      else .ok (.tupleGetItem s₁.fresh t' idx, bumpFresh s₁)
termination_by (sizeOf e, 0)

/-- The field/argument rewrite loops of the tuple and call handlers. -/
def mutateList (ov : Expr → Option Expr) (vt : Ty → Ty) (es : List Expr) (s : MState) :
    Except String (List Expr × MState) :=
  match es with
  | [] => .ok ([], s)
  | x :: xs =>
    match mutate ov vt x s with
    | .error msg => .error msg
    | .ok (x', s₁) =>
      match mutateList ov vt xs s₁ with
      | .error msg => .error msg
      | .ok (xs', s₂) => .ok (x' :: xs', s₂)
termination_by (sizeOf es, 2)

/-- The parameter rewrite loop of the function handler, with the per-element
`Downcast<Var>` contract check. -/
def mutateParams (ov : Expr → Option Expr) (vt : Ty → Ty) (ps : List Expr) (s : MState) :
    Except String (List Expr × MState) :=
  match ps with
  | [] => .ok ([], s)
  | p :: rest =>
    match mutate ov vt p s with
    | .error msg => .error msg
    | .ok (p', s₁) =>
      if p'.isVar = false then .error "Downcast to Var failed"
      else
        match mutateParams ov vt rest s₁ with
        | .error msg => .error msg
        | .ok (rest', s₂) => .ok (p' :: rest', s₂)
termination_by (sizeOf ps, 2)

end

/-- State of one `ExprVisitor` instance: the `visit_counter_` map from node identity
to visit count, and a chronological log of the nodes whose kind-specific callback
completed (instrumentation of the insertion at the end of `VisitExpr`). -/
structure VState where
  counter : List (Nat × Nat)
  vlog : List Expr

/-- `visit_counter_.find(expr.get())`. -/
def lookupCounter (k : Nat) : List (Nat × Nat) → Option Nat
  | [] => none
  | (k', v) :: rest => if k = k' then some v else lookupCounter k rest

/-- `++it->second`: increment the counter of an already-present key. -/
def bumpCounter (k : Nat) : List (Nat × Nat) → List (Nat × Nat)
  | [] => []
  | (k', v) :: rest =>
    if k = k' then (k', v + 1) :: rest else (k', v) :: bumpCounter k rest

/-- `visit_counter_.insert({expr.get(), 1})`: no-op when the key is present. -/
def insertCounter (k v : Nat) (l : List (Nat × Nat)) : List (Nat × Nat) :=
  match lookupCounter k l with
  | some _ => l
  | none => (k, v) :: l

mutual

/-- `ExprVisitor::VisitExpr`: on a counter hit, bump the count and do not run the
kind-specific callback again; on a miss, run the callback and then record the
identity with count 1. -/
def visit (e : Expr) (s : VState) : VState :=
  match lookupCounter e.eid s.counter with
  | some _ => { s with counter := bumpCounter e.eid s.counter }
  | none =>
    let s₁ := visitKind e s
    { s₁ with counter := insertCounter e.eid 1 s₁.counter, vlog := s₁.vlog ++ [e] }
termination_by (sizeOf e, 1)

/-- The default kind-specific callbacks `ExprVisitor::VisitExpr_`, with the source's
child traversal orders.  The `VisitType` hook defaults to a no-op and is modelled
as such (no claim concerns an overridden visitor type hook). -/
def visitKind (e : Expr) (s : VState) : VState :=
  match e with
  | .var _ _ _ => s
  | .globalVar _ => s
  | .constant _ => s
  | .tuple _ fields => visitList fields s
  | .function _ _ _ _ ps _ body _ => visit body (visitList ps s)
  | .call _ callee _ args _ => visitList args (visit callee s)
  | .letE _ lv value body => visit body (visit lv (visit value s))
  | .ifE _ c tb fb => visit fb (visit tb (visit c s))
  | .op _ => s
  | .tupleGetItem _ tup _ => visit tup s
termination_by (sizeOf e, 0)

/-- The field/argument visit loops. -/
def visitList (es : List Expr) (s : VState) : VState :=
  match es with
  | [] => s
  | x :: xs => visitList xs (visit x s)
termination_by (sizeOf es, 2)

end

mutual

/-- All expression subterms of a node, the node itself included (the set of nodes a
traversal can reach from it). -/
def Expr.nodes : Expr → List Expr
  | .var i nm a => [.var i nm a]
  | .constant i => [.constant i]
  | .globalVar i => [.globalVar i]
  | .op i => [.op i]
  | .tuple i fs => .tuple i fs :: nodesList fs
  | .function i ta tp pa ps rt b ats =>
      .function i ta tp pa ps rt b ats :: (nodesList ps ++ b.nodes)
  | .call i c ta as ats => .call i c ta as ats :: (c.nodes ++ nodesList as)
  | .letE i v val b => .letE i v val b :: (v.nodes ++ val.nodes ++ b.nodes)
  | .ifE i c t f => .ifE i c t f :: (c.nodes ++ t.nodes ++ f.nodes)
  | .tupleGetItem i t ix => .tupleGetItem i t ix :: t.nodes
termination_by e => sizeOf e

/-- Subterms of each member of a list of expressions. -/
def nodesList : List Expr → List Expr
  | [] => []
  | x :: xs => x.nodes ++ nodesList xs
termination_by es => sizeOf es

end

/-- Well-formedness of an object DAG rendered as a tagged tree: the identity tag
determines the node.  This is exactly what holds of pointers to immutable objects
in an acyclic heap. -/
def WfDag (root : Expr) : Prop :=
  ∀ a ∈ root.nodes, ∀ b ∈ root.nodes, a.eid = b.eid → a = b

/-- A mutator with no kind-specific overrides: every handler is the base-class
default. -/
def noOverride : Expr → Option Expr := fun _ => none

/-- The all-default mutator: no handler overrides, identity type hook (the default
`ExprMutator::VisitType`). -/
def mutateDefault (e : Expr) (s : MState) : Except String (Expr × MState) :=
  mutate noOverride id e s

/-- Initial state of a fresh mutator instance: empty memo cache and logs; `n` seeds
the fresh-identity counter (any identity larger than all identities of the input
graph, since allocations are fresh addresses). -/
def initM (n : Nat) : MState := ⟨[], n, [], []⟩

/-- Initial state of a fresh visitor instance. -/
def initV : VState := ⟨[], []⟩

/-- Recognizer used by the counting-mutator examples. -/
def isConstant : Expr → Bool
  | .constant _ => true
  | _ => false

/-! ### Concrete input graphs for the examples of the claims -/

/-- The shared constant of the at-most-once-rewrite example. -/
def sharedC : Expr := .constant 0

/-- `a = TupleGetItem(shared, 0)`. -/
def tgiA : Expr := .tupleGetItem 1 sharedC 0

/-- `b = TupleGetItem(shared, 0)`, a second distinct projection of the same
shared constant. -/
def tgiB : Expr := .tupleGetItem 2 sharedC 0

/-- `root = Tuple([a, b])`: the shared constant is reachable twice. -/
def rootC1 : Expr := .tuple 3 [tgiA, tgiB]

/-- A function whose parameter, return type and body the default mutator leaves
unchanged. -/
def c4fun : Expr := .function 10 (some 100) [] (some 101) [.var 1 "x" none] 7 (.constant 2) 0

/-- What the default mutator actually returns for `c4fun` when the allocation
counter starts at 50: a freshly built function with identical children. -/
def c4rebuilt : Expr := .function 50 none [] none [.var 1 "x" none] 7 (.constant 2) 0

/-- An already-minimal tree containing a function node. -/
def c5fun : Expr := .function 11 (some 110) [] (some 111) [.var 4 "y" none] 8 (.constant 5) 0

/-- `Tuple([c5fun])`, an already-minimal tree. -/
def c5root : Expr := .tuple 20 [c5fun]

/-- The final mutator state of the all-default pass over `rootC1` seeded at 100:
each of the four distinct nodes is rewritten once, the shared constant first. -/
def c1Final : MState :=
  ⟨[(3, rootC1), (2, tgiB), (1, tgiA), (0, sharedC)], 100,
    [sharedC, tgiA, tgiB, rootC1], []⟩

/-- A small let-binding: `Let(x, Constant 7, Constant 8)` with all-distinct
identities. -/
def letEx : Expr := .letE 31 (.var 1 "x" none) (.constant 7) (.constant 8)

/-- The final mutator state of the all-default pass over `letEx` seeded at 90. -/
def c9Final : MState :=
  ⟨[(31, letEx), (8, .constant 8), (7, .constant 7), (1, .var 1 "x" none)], 90,
    [.var 1 "x" none, .constant 7, .constant 8, letEx], []⟩

/-- A pass override that rewrites the `Var` with identity 1 into a `Constant` —
the contract-violating parameter mutator of the fatal-downcast example. -/
def ovC7 : Expr → Option Expr := fun e =>
  match e with
  | .var 1 _ _ => some (.constant 99)
  | _ => none

/-- A function whose only parameter is the `Var` that `ovC7` rewrites to a
non-`Var`. -/
def c7fun : Expr := .function 30 (some 300) [] (some 301) [.var 1 "x" none] 9 (.constant 6) 0

/-- A let-binding whose bound `Var` is the one `ovC7` rewrites to a non-`Var`. -/
def c7let : Expr := .letE 31 (.var 1 "x" none) (.constant 7) (.constant 8)

/-- The memo cache grew by prepending (append-only) and the allocation counter did
not decrease. -/
def MonoRel (s s' : MState) : Prop :=
  s.memo <:+ s'.memo ∧ s.fresh ≤ s'.fresh

def MutInv (s : MState) : Prop :=
  (s.memo.map Prod.fst).Nodup ∧ s.log.map Expr.eid = (s.memo.map Prod.fst).reverse

def VInv (root : Expr) (s : VState) : Prop :=
  (s.vlog.map Expr.eid).Nodup ∧
  (∀ y ∈ s.vlog, y ∈ root.nodes) ∧
  (∀ k, k ∈ s.counter.map Prod.fst ↔ ∃ y ∈ s.vlog, y.eid = k) ∧
  (∀ y ∈ s.vlog, ∀ x ∈ y.nodes, x ∈ s.vlog)

/-! ## Subterm (`nodes`) lemmas -/

theorem mem_nodes_self (e : Expr) : e ∈ e.nodes := by
  cases e <;> simp [Expr.nodes]

theorem mem_nodesList_iff {a : Expr} {xs : List Expr} :
    a ∈ nodesList xs ↔ ∃ x ∈ xs, a ∈ x.nodes := by
  induction xs with
  | nil => simp [nodesList]
  | cons x xs ih => simp [nodesList, ih]

theorem sizeOf_le_of_mem_nodes_all :
    ∀ (e : Expr), ∀ a ∈ e.nodes, sizeOf a ≤ sizeOf e := by
  apply Expr.nodes.induct (fun e => ∀ a ∈ e.nodes, sizeOf a ≤ sizeOf e)
    (fun xs => ∀ a ∈ nodesList xs, sizeOf a < sizeOf xs)
  · intro i nm ann a ha
    simp only [Expr.nodes, List.mem_singleton, List.not_mem_nil, or_false] at ha
    exact le_of_eq (by rw [ha])
  · intro i a ha
    simp only [Expr.nodes, List.mem_singleton, List.not_mem_nil, or_false] at ha
    exact le_of_eq (by rw [ha])
  · intro i a ha
    simp only [Expr.nodes, List.mem_singleton, List.not_mem_nil, or_false] at ha
    exact le_of_eq (by rw [ha])
  · intro i a ha
    simp only [Expr.nodes, List.mem_singleton, List.not_mem_nil, or_false] at ha
    exact le_of_eq (by rw [ha])
  · intro i fields ih a ha
    simp only [Expr.nodes, List.mem_cons] at ha
    rcases ha with rfl | ha
    · exact le_refl _
    · have h1 := ih a ha
      have h2 : sizeOf (Expr.tuple i fields) = 1 + sizeOf i + sizeOf fields := by simp
      omega
  · intro i tyAid tyParams pAid params retTy body attrs ih1 ih2 a ha
    simp only [Expr.nodes, List.mem_cons, List.mem_append] at ha
    have h2 : sizeOf (Expr.function i tyAid tyParams pAid params retTy body attrs) =
        1 + sizeOf i + sizeOf tyAid + sizeOf tyParams + sizeOf pAid + sizeOf params +
          sizeOf retTy + sizeOf body + sizeOf attrs := by simp
    rcases ha with rfl | ha | ha
    · exact le_refl _
    · have h1 := ih1 a ha; omega
    · have h1 := ih2 a ha; omega
  · intro i callee tyArgs args attrs ih1 ih2 a ha
    simp only [Expr.nodes, List.mem_cons, List.mem_append] at ha
    have h2 : sizeOf (Expr.call i callee tyArgs args attrs) =
        1 + sizeOf i + sizeOf callee + sizeOf tyArgs + sizeOf args + sizeOf attrs := by
      simp
    rcases ha with rfl | ha | ha
    · exact le_refl _
    · have h1 := ih1 a ha; omega
    · have h1 := ih2 a ha; omega
  · intro i lv value body ih1 ih2 ih3 a ha
    simp only [Expr.nodes, List.mem_cons, List.mem_append, or_assoc] at ha
    have h2 : sizeOf (Expr.letE i lv value body) =
        1 + sizeOf i + sizeOf lv + sizeOf value + sizeOf body := by simp
    rcases ha with rfl | ha | ha | ha
    · exact le_refl _
    · have h1 := ih1 a ha; omega
    · have h1 := ih2 a ha; omega
    · have h1 := ih3 a ha; omega
  · intro i c tb fb ih1 ih2 ih3 a ha
    simp only [Expr.nodes, List.mem_cons, List.mem_append, or_assoc] at ha
    have h2 : sizeOf (Expr.ifE i c tb fb) =
        1 + sizeOf i + sizeOf c + sizeOf tb + sizeOf fb := by simp
    rcases ha with rfl | ha | ha | ha
    · exact le_refl _
    · have h1 := ih1 a ha; omega
    · have h1 := ih2 a ha; omega
    · have h1 := ih3 a ha; omega
  · intro i tup idx ih a ha
    simp only [Expr.nodes, List.mem_cons] at ha
    have h2 : sizeOf (Expr.tupleGetItem i tup idx) =
        1 + sizeOf i + sizeOf tup + sizeOf idx := by simp
    rcases ha with rfl | ha
    · exact le_refl _
    · have h1 := ih a ha; omega
  · intro a ha
    simp [nodesList] at ha
  · intro x xs ih1 ih2 a ha
    simp only [nodesList, List.mem_append] at ha
    have h2 : sizeOf (x :: xs) = 1 + sizeOf x + sizeOf xs := by simp
    rcases ha with ha | ha
    · have h1 := ih1 a ha; omega
    · have h1 := ih2 a ha; omega

theorem sizeOf_le_of_mem_nodes {e a : Expr} (h : a ∈ e.nodes) : sizeOf a ≤ sizeOf e :=
  sizeOf_le_of_mem_nodes_all e a h

theorem nodes_trans_all :
    ∀ (c : Expr), ∀ b ∈ c.nodes, ∀ a ∈ b.nodes, a ∈ c.nodes := by
  apply Expr.nodes.induct (fun c => ∀ b ∈ c.nodes, ∀ a ∈ b.nodes, a ∈ c.nodes)
    (fun cs => ∀ b ∈ nodesList cs, ∀ a ∈ b.nodes, a ∈ nodesList cs)
  · intro i nm ann b hb a ha
    simp only [Expr.nodes, List.mem_singleton, List.not_mem_nil, or_false] at hb
    subst hb
    exact ha
  · intro i b hb a ha
    simp only [Expr.nodes, List.mem_singleton, List.not_mem_nil, or_false] at hb
    subst hb
    exact ha
  · intro i b hb a ha
    simp only [Expr.nodes, List.mem_singleton, List.not_mem_nil, or_false] at hb
    subst hb
    exact ha
  · intro i b hb a ha
    simp only [Expr.nodes, List.mem_singleton, List.not_mem_nil, or_false] at hb
    subst hb
    exact ha
  · intro i fields ih b hb a ha
    simp only [Expr.nodes, List.mem_cons] at hb ⊢
    rcases hb with rfl | hb
    · simpa [Expr.nodes] using ha
    · exact Or.inr (ih b hb a ha)
  · intro i tyAid tyParams pAid params retTy body attrs ih1 ih2 b hb a ha
    simp only [Expr.nodes, List.mem_cons, List.mem_append] at hb ⊢
    rcases hb with rfl | hb | hb
    · simpa [Expr.nodes] using ha
    · exact Or.inr (Or.inl (ih1 b hb a ha))
    · exact Or.inr (Or.inr (ih2 b hb a ha))
  · intro i callee tyArgs args attrs ih1 ih2 b hb a ha
    simp only [Expr.nodes, List.mem_cons, List.mem_append] at hb ⊢
    rcases hb with rfl | hb | hb
    · simpa [Expr.nodes] using ha
    · exact Or.inr (Or.inl (ih1 b hb a ha))
    · exact Or.inr (Or.inr (ih2 b hb a ha))
  · intro i lv value body ih1 ih2 ih3 b hb a ha
    simp only [Expr.nodes, List.mem_cons, List.mem_append, or_assoc] at hb ⊢
    rcases hb with rfl | hb | hb | hb
    · simpa [Expr.nodes] using ha
    · exact Or.inr (Or.inl (ih1 b hb a ha))
    · exact Or.inr (Or.inr (Or.inl (ih2 b hb a ha)))
    · exact Or.inr (Or.inr (Or.inr (ih3 b hb a ha)))
  · intro i c tb fb ih1 ih2 ih3 b hb a ha
    simp only [Expr.nodes, List.mem_cons, List.mem_append, or_assoc] at hb ⊢
    rcases hb with rfl | hb | hb | hb
    · simpa [Expr.nodes] using ha
    · exact Or.inr (Or.inl (ih1 b hb a ha))
    · exact Or.inr (Or.inr (Or.inl (ih2 b hb a ha)))
    · exact Or.inr (Or.inr (Or.inr (ih3 b hb a ha)))
  · intro i tup idx ih b hb a ha
    simp only [Expr.nodes, List.mem_cons] at hb ⊢
    rcases hb with rfl | hb
    · simpa [Expr.nodes] using ha
    · exact Or.inr (ih b hb a ha)
  · intro b hb
    simp [nodesList] at hb
  · intro x xs ih1 ih2 b hb a ha
    simp only [nodesList, List.mem_append] at hb ⊢
    rcases hb with hb | hb
    · exact Or.inl (ih1 b hb a ha)
    · exact Or.inr (ih2 b hb a ha)

theorem nodes_trans {a b c : Expr} (hab : a ∈ b.nodes) (hbc : b ∈ c.nodes) :
    a ∈ c.nodes :=
  nodes_trans_all c b hbc a hab

/-- A list-level corollary: a subterm of a member of `xs` is strictly smaller than
`xs`. -/
theorem sizeOf_lt_of_mem_nodesList {a : Expr} {xs : List Expr}
    (h : a ∈ nodesList xs) : sizeOf a < sizeOf xs := by
  obtain ⟨x, hx, hax⟩ := mem_nodesList_iff.1 h
  exact lt_of_le_of_lt (sizeOf_le_of_mem_nodes hax) (List.sizeOf_lt_of_mem hx)

/-! ## Small state lemmas -/

@[simp] theorem record_memo (e r : Expr) (s : MState) :
    (record e r s).memo = (e.eid, r) :: s.memo := rfl

@[simp] theorem record_fresh (e r : Expr) (s : MState) :
    (record e r s).fresh = s.fresh := rfl

@[simp] theorem record_log (e r : Expr) (s : MState) :
    (record e r s).log = s.log ++ [e] := rfl

@[simp] theorem bumpFresh_memo (s : MState) : (bumpFresh s).memo = s.memo := rfl

@[simp] theorem bumpFresh_fresh (s : MState) : (bumpFresh s).fresh = s.fresh + 1 := rfl

@[simp] theorem bumpFresh_log (s : MState) : (bumpFresh s).log = s.log := rfl

@[simp] theorem visitTypeM_fst (vt : Ty → Ty) (t : Ty) (s : MState) :
    (visitTypeM vt t s).1 = vt t := rfl

@[simp] theorem visitTypeM_memo (vt : Ty → Ty) (t : Ty) (s : MState) :
    (visitTypeM vt t s).2.memo = s.memo := rfl

@[simp] theorem visitTypeM_fresh (vt : Ty → Ty) (t : Ty) (s : MState) :
    (visitTypeM vt t s).2.fresh = s.fresh := rfl

@[simp] theorem visitTypeM_log (vt : Ty → Ty) (t : Ty) (s : MState) :
    (visitTypeM vt t s).2.log = s.log := rfl

@[simp] theorem visitTypeM_tlog (vt : Ty → Ty) (t : Ty) (s : MState) :
    (visitTypeM vt t s).2.tlog = s.tlog ++ [t] := rfl

@[simp] theorem visitTypeListM_memo (vt : Ty → Ty) (ts : List Ty) (s : MState) :
    (visitTypeListM vt ts s).2.memo = s.memo := by
  induction ts generalizing s with
  | nil => rfl
  | cons t ts ih => simp [visitTypeListM, ih]

@[simp] theorem visitTypeListM_fresh (vt : Ty → Ty) (ts : List Ty) (s : MState) :
    (visitTypeListM vt ts s).2.fresh = s.fresh := by
  induction ts generalizing s with
  | nil => rfl
  | cons t ts ih => simp [visitTypeListM, ih]

@[simp] theorem visitTypeListM_log (vt : Ty → Ty) (ts : List Ty) (s : MState) :
    (visitTypeListM vt ts s).2.log = s.log := by
  induction ts generalizing s with
  | nil => rfl
  | cons t ts ih => simp [visitTypeListM, ih]

/-! ## Monotonicity of the mutator state

Every successful mutator step only grows the memo cache (old cache is a suffix of
the new one, since insertion prepends) and never decreases the fresh-identity
counter. -/

theorem MonoRel.rfl (s : MState) : MonoRel s s := ⟨List.suffix_refl _, le_refl _⟩

theorem MonoRel.trans {s₁ s₂ s₃ : MState} (h : MonoRel s₁ s₂) (h' : MonoRel s₂ s₃) :
    MonoRel s₁ s₃ := ⟨h.1.trans h'.1, h.2.trans h'.2⟩

theorem MonoRel.record (e r : Expr) (s : MState) : MonoRel s (TvmRelay.record e r s) :=
  ⟨List.suffix_cons _ _, le_refl _⟩

theorem MonoRel.bumpFresh (s : MState) : MonoRel s (TvmRelay.bumpFresh s) :=
  ⟨List.suffix_refl _, Nat.le_succ _⟩

theorem MonoRel.visitTypeM (vt : Ty → Ty) (t : Ty) (s : MState) :
    MonoRel s (TvmRelay.visitTypeM vt t s).2 := ⟨List.suffix_refl _, le_refl _⟩

theorem MonoRel.visitTypeListM (vt : Ty → Ty) (ts : List Ty) (s : MState) :
    MonoRel s (TvmRelay.visitTypeListM vt ts s).2 := by
  constructor <;> simp

/-! ## Memo lookup lemmas -/

theorem lookupMemo_eq_none_iff {k : Nat} {m : List (Nat × Expr)} :
    lookupMemo k m = none ↔ k ∉ m.map Prod.fst := by
  induction m with
  | nil => simp [lookupMemo]
  | cons p rest ih =>
    obtain ⟨k', v⟩ := p
    by_cases hk : k = k' <;> simp [lookupMemo, hk, ih]

theorem lookupMemo_cons_self (k : Nat) (v : Expr) (m : List (Nat × Expr)) :
    lookupMemo k ((k, v) :: m) = some v := by simp [lookupMemo]

/-! ## The mutator invariant

`MutInv` ties together the two pieces of instrumented state: the memo keys are
pairwise distinct (no binding is ever overwritten), and the rewrite-computation log
records exactly the memo insertions in chronological order (the memo prepends while
the log appends, hence the reversal). -/

theorem MutInv_congr {s s' : MState} (hm : s'.memo = s.memo) (hl : s'.log = s.log)
    (h : MutInv s) : MutInv s' := by
  unfold MutInv at *
  rw [hm, hl]
  exact h

theorem MutInv.recordStep {s : MState} (hinv : MutInv s) (e r : Expr)
    (hnot : e.eid ∉ s.memo.map Prod.fst) : MutInv (record e r s) := by
  unfold MutInv at *
  refine ⟨?_, ?_⟩
  · simpa [hnot] using hinv.1
  · simp [hinv.2]

theorem mem_nodes_of_mem_list {f : Expr} {fs : List Expr} (h : f ∈ fs) :
    f ∈ nodesList fs :=
  mem_nodesList_iff.2 ⟨f, h, mem_nodes_self f⟩

section Mono

variable (ov : Expr → Option Expr) (vt : Ty → Ty)

mutual

theorem mutate_mono (e : Expr) (s : MState) (r : Expr) (s' : MState)
    (h : mutate ov vt e s = .ok (r, s')) : MonoRel s s' := by
  rw [mutate] at h
  cases hl : lookupMemo e.eid s.memo with
  | some r0 =>
    rw [hl] at h
    simp only [Except.ok.injEq, Prod.mk.injEq] at h
    obtain ⟨-, rfl⟩ := h
    exact MonoRel.rfl s
  | none =>
    rw [hl] at h
    cases ho : ov e with
    | some r0 =>
      rw [ho] at h
      simp only [Except.ok.injEq, Prod.mk.injEq] at h
      obtain ⟨-, rfl⟩ := h
      exact MonoRel.record _ _ _
    | none =>
      rw [ho] at h
      cases hk : mutateKind ov vt e s with
      | error msg => rw [hk] at h; simp at h
      | ok p =>
        rw [hk] at h
        simp only [Except.ok.injEq, Prod.mk.injEq] at h
        obtain ⟨-, rfl⟩ := h
        exact (mutateKind_mono e s p.1 p.2 (by rw [hk])).trans (MonoRel.record _ _ _)
termination_by (sizeOf e, 1)

theorem mutateKind_mono (e : Expr) (s : MState) (r : Expr) (s' : MState)
    (h : mutateKind ov vt e s = .ok (r, s')) : MonoRel s s' := by
  cases e with
  | var i nm ann =>
    rw [mutateKind.eq_def] at h
    dsimp only at h
    cases ann with
    | none =>
      simp only [Except.ok.injEq, Prod.mk.injEq] at h
      obtain ⟨-, rfl⟩ := h
      exact MonoRel.rfl s
    | some t =>
      dsimp only at h
      split at h <;>
        (simp only [Except.ok.injEq, Prod.mk.injEq] at h; obtain ⟨-, rfl⟩ := h)
      · exact MonoRel.visitTypeM vt t s
      · exact (MonoRel.visitTypeM vt t s).trans (MonoRel.bumpFresh _)
  | constant i =>
    rw [mutateKind.eq_def] at h
    dsimp only at h
    simp only [Except.ok.injEq, Prod.mk.injEq] at h
    obtain ⟨-, rfl⟩ := h
    exact MonoRel.rfl s
  | globalVar i =>
    rw [mutateKind.eq_def] at h
    dsimp only at h
    simp only [Except.ok.injEq, Prod.mk.injEq] at h
    obtain ⟨-, rfl⟩ := h
    exact MonoRel.rfl s
  | op i =>
    rw [mutateKind.eq_def] at h
    dsimp only at h
    simp only [Except.ok.injEq, Prod.mk.injEq] at h
    obtain ⟨-, rfl⟩ := h
    exact MonoRel.rfl s
  | tuple i fields =>
    rw [mutateKind.eq_def] at h
    dsimp only at h
    cases hml : mutateList ov vt fields s with
    | error msg => rw [hml] at h; simp at h
    | ok p =>
      obtain ⟨fields', s₁⟩ := p
      rw [hml] at h
      dsimp only at h
      have hm := mutateList_mono fields s fields' s₁ hml
      split at h <;>
        (simp only [Except.ok.injEq, Prod.mk.injEq] at h; obtain ⟨-, rfl⟩ := h)
      · exact hm
      · exact hm.trans (MonoRel.bumpFresh _)
  | function i tyAid tyPs pAid ps rty body attrs =>
    rw [mutateKind.eq_def] at h
    dsimp only at h
    cases hmp : mutateParams ov vt ps (visitTypeListM vt tyPs s).2 with
    | error msg => rw [hmp] at h; simp at h
    | ok p =>
      obtain ⟨ps', s₂⟩ := p
      rw [hmp] at h
      dsimp only at h
      have h1 := (MonoRel.visitTypeListM vt tyPs s).trans
        (mutateParams_mono ps _ ps' s₂ hmp)
      cases hmb : mutate ov vt body (visitTypeM vt rty s₂).2 with
      | error msg => rw [hmb] at h; simp at h
      | ok q =>
        obtain ⟨body', s₄⟩ := q
        rw [hmb] at h
        dsimp only at h
        have h2 := (h1.trans (MonoRel.visitTypeM vt rty s₂)).trans
          (mutate_mono body _ body' s₄ hmb)
        split at h <;>
          (simp only [Except.ok.injEq, Prod.mk.injEq] at h; obtain ⟨-, rfl⟩ := h)
        · exact h2
        · exact h2.trans (MonoRel.bumpFresh _)
  | call i callee tyArgs args attrs =>
    rw [mutateKind.eq_def] at h
    dsimp only at h
    cases hmc : mutate ov vt callee s with
    | error msg => rw [hmc] at h; simp at h
    | ok p =>
      obtain ⟨callee', s₁⟩ := p
      rw [hmc] at h
      dsimp only at h
      have h1 := (mutate_mono callee s callee' s₁ hmc).trans
        (MonoRel.visitTypeListM vt tyArgs s₁)
      cases hma : mutateList ov vt args (visitTypeListM vt tyArgs s₁).2 with
      | error msg => rw [hma] at h; simp at h
      | ok q =>
        obtain ⟨args', s₃⟩ := q
        rw [hma] at h
        dsimp only at h
        have h2 := h1.trans (mutateList_mono args _ args' s₃ hma)
        split at h <;>
          (simp only [Except.ok.injEq, Prod.mk.injEq] at h; obtain ⟨-, rfl⟩ := h)
        · exact h2
        · exact h2.trans (MonoRel.bumpFresh _)
  | letE i lv value body =>
    rw [mutateKind.eq_def] at h
    dsimp only at h
    cases hv : mutate ov vt lv s with
    | error msg => rw [hv] at h; simp at h
    | ok p =>
      obtain ⟨lv', s₁⟩ := p
      rw [hv] at h
      dsimp only at h
      have h1 := mutate_mono lv s lv' s₁ hv
      split at h
      · simp at h
      · cases hval : mutate ov vt value s₁ with
        | error msg => rw [hval] at h; simp at h
        | ok q =>
          obtain ⟨value', s₂⟩ := q
          rw [hval] at h
          dsimp only at h
          have h2 := h1.trans (mutate_mono value s₁ value' s₂ hval)
          cases hb : mutate ov vt body s₂ with
          | error msg => rw [hb] at h; simp at h
          | ok w =>
            obtain ⟨body', s₃⟩ := w
            rw [hb] at h
            dsimp only at h
            have h3 := h2.trans (mutate_mono body s₂ body' s₃ hb)
            split at h <;>
              (simp only [Except.ok.injEq, Prod.mk.injEq] at h; obtain ⟨-, rfl⟩ := h)
            · exact h3
            · exact h3.trans (MonoRel.bumpFresh _)
  | ifE i c tb fb =>
    rw [mutateKind.eq_def] at h
    dsimp only at h
    cases hc : mutate ov vt c s with
    | error msg => rw [hc] at h; simp at h
    | ok p =>
      obtain ⟨c', s₁⟩ := p
      rw [hc] at h
      dsimp only at h
      have h1 := mutate_mono c s c' s₁ hc
      cases ht : mutate ov vt tb s₁ with
      | error msg => rw [ht] at h; simp at h
      | ok q =>
        obtain ⟨tb', s₂⟩ := q
        rw [ht] at h
        dsimp only at h
        have h2 := h1.trans (mutate_mono tb s₁ tb' s₂ ht)
        cases hf : mutate ov vt fb s₂ with
        | error msg => rw [hf] at h; simp at h
        | ok w =>
          obtain ⟨fb', s₃⟩ := w
          rw [hf] at h
          dsimp only at h
          have h3 := h2.trans (mutate_mono fb s₂ fb' s₃ hf)
          split at h <;>
            (simp only [Except.ok.injEq, Prod.mk.injEq] at h; obtain ⟨-, rfl⟩ := h)
          · exact h3
          · exact h3.trans (MonoRel.bumpFresh _)
  | tupleGetItem i tup idx =>
    rw [mutateKind.eq_def] at h
    dsimp only at h
    cases htp : mutate ov vt tup s with
    | error msg => rw [htp] at h; simp at h
    | ok p =>
      obtain ⟨t', s₁⟩ := p
      rw [htp] at h
      dsimp only at h
      have h1 := mutate_mono tup s t' s₁ htp
      split at h <;>
        (simp only [Except.ok.injEq, Prod.mk.injEq] at h; obtain ⟨-, rfl⟩ := h)
      · exact h1
      · exact h1.trans (MonoRel.bumpFresh _)
termination_by (sizeOf e, 0)

theorem mutateList_mono (es : List Expr) (s : MState) (rs : List Expr) (s' : MState)
    (h : mutateList ov vt es s = .ok (rs, s')) : MonoRel s s' := by
  cases es with
  | nil =>
    rw [mutateList] at h
    simp only [Except.ok.injEq, Prod.mk.injEq] at h
    obtain ⟨-, rfl⟩ := h
    exact MonoRel.rfl s
  | cons x xs =>
    rw [mutateList] at h
    cases hx : mutate ov vt x s with
    | error msg => rw [hx] at h; simp at h
    | ok p =>
      obtain ⟨x', s₁⟩ := p
      rw [hx] at h
      dsimp only at h
      have h1 := mutate_mono x s x' s₁ hx
      cases hxs : mutateList ov vt xs s₁ with
      | error msg => rw [hxs] at h; simp at h
      | ok q =>
        obtain ⟨xs', s₂⟩ := q
        rw [hxs] at h
        simp only [Except.ok.injEq, Prod.mk.injEq] at h
        obtain ⟨-, rfl⟩ := h
        exact h1.trans (mutateList_mono xs s₁ xs' s₂ hxs)
termination_by (sizeOf es, 2)

theorem mutateParams_mono (ps : List Expr) (s : MState) (rs : List Expr) (s' : MState)
    (h : mutateParams ov vt ps s = .ok (rs, s')) : MonoRel s s' := by
  cases ps with
  | nil =>
    rw [mutateParams] at h
    simp only [Except.ok.injEq, Prod.mk.injEq] at h
    obtain ⟨-, rfl⟩ := h
    exact MonoRel.rfl s
  | cons p rest =>
    rw [mutateParams] at h
    cases hp : mutate ov vt p s with
    | error msg => rw [hp] at h; simp at h
    | ok w =>
      obtain ⟨p', s₁⟩ := w
      rw [hp] at h
      dsimp only at h
      have h1 := mutate_mono p s p' s₁ hp
      split at h
      · simp at h
      · cases hr : mutateParams ov vt rest s₁ with
        | error msg => rw [hr] at h; simp at h
        | ok q =>
          obtain ⟨rest', s₂⟩ := q
          rw [hr] at h
          simp only [Except.ok.injEq, Prod.mk.injEq] at h
          obtain ⟨-, rfl⟩ := h
          exact h1.trans (mutateParams_mono rest s₁ rest' s₂ hr)
termination_by (sizeOf ps, 2)

end

end Mono

/-! ## The main memoization invariant

On a well-formed DAG, every successful mutator run preserves `MutInv`: each node
identity is bound in the memo cache (and logged) at most once, every new memo key
comes from a subterm of the node being mutated, and after mutating `e` the cache
answers `e`'s identity with the returned result. -/

section Main

variable (ov : Expr → Option Expr) (vt : Ty → Ty) (root : Expr)

mutual

theorem mutate_main (hwf : WfDag root) (e : Expr) (he : e ∈ root.nodes) (s : MState)
    (hinv : MutInv s) (r : Expr) (s' : MState) (h : mutate ov vt e s = .ok (r, s')) :
    MutInv s' ∧
      (∀ k ∈ s'.memo.map Prod.fst, k ∈ s.memo.map Prod.fst ∨ ∃ x ∈ e.nodes, x.eid = k) ∧
      lookupMemo e.eid s'.memo = some r := by
  rw [mutate] at h
  cases hl : lookupMemo e.eid s.memo with
  | some r0 =>
    rw [hl] at h
    simp only [Except.ok.injEq, Prod.mk.injEq] at h
    obtain ⟨rfl, rfl⟩ := h
    exact ⟨hinv, fun k hk => Or.inl hk, hl⟩
  | none =>
    rw [hl] at h
    have hne : e.eid ∉ s.memo.map Prod.fst := lookupMemo_eq_none_iff.1 hl
    cases ho : ov e with
    | some r0 =>
      rw [ho] at h
      simp only [Except.ok.injEq, Prod.mk.injEq] at h
      obtain ⟨rfl, rfl⟩ := h
      refine ⟨hinv.recordStep e r0 hne, ?_, lookupMemo_cons_self _ _ _⟩
      intro k hk
      simp only [record_memo, List.map_cons, List.mem_cons] at hk
      rcases hk with rfl | hk
      · exact Or.inr ⟨e, mem_nodes_self e, rfl⟩
      · exact Or.inl hk
    | none =>
      rw [ho] at h
      cases hk : mutateKind ov vt e s with
      | error msg => rw [hk] at h; simp at h
      | ok p =>
        obtain ⟨r1, s₁⟩ := p
        rw [hk] at h
        simp only [Except.ok.injEq, Prod.mk.injEq] at h
        obtain ⟨rfl, rfl⟩ := h
        obtain ⟨hinv1, hnew1⟩ := mutateKind_main hwf e he s hinv r1 s₁ hk
        have hne1 : e.eid ∉ s₁.memo.map Prod.fst := by
          intro hmem
          rcases hnew1 _ hmem with hin | ⟨x, hx, hxe, hxs⟩
          · exact hne hin
          · have hxr : x ∈ root.nodes := nodes_trans hx he
            have hxeq : x = e := hwf x hxr e he hxe
            rw [hxeq] at hxs
            omega
        refine ⟨hinv1.recordStep e r1 hne1, ?_, lookupMemo_cons_self _ _ _⟩
        intro k hkm
        simp only [record_memo, List.map_cons, List.mem_cons] at hkm
        rcases hkm with rfl | hkm
        · exact Or.inr ⟨e, mem_nodes_self e, rfl⟩
        · rcases hnew1 _ hkm with hin | ⟨x, hx, hxe, -⟩
          · exact Or.inl hin
          · exact Or.inr ⟨x, hx, hxe⟩
termination_by (sizeOf e, 1)

theorem mutateKind_main (hwf : WfDag root) (e : Expr) (he : e ∈ root.nodes) (s : MState)
    (hinv : MutInv s) (r : Expr) (s' : MState) (h : mutateKind ov vt e s = .ok (r, s')) :
    MutInv s' ∧
      (∀ k ∈ s'.memo.map Prod.fst,
        k ∈ s.memo.map Prod.fst ∨ ∃ x ∈ e.nodes, x.eid = k ∧ sizeOf x < sizeOf e) := by
  cases e with
  | var i nm ann =>
    rw [mutateKind.eq_def] at h
    dsimp only at h
    cases ann with
    | none =>
      simp only [Except.ok.injEq, Prod.mk.injEq] at h
      obtain ⟨-, rfl⟩ := h
      exact ⟨hinv, fun k hk => Or.inl hk⟩
    | some t =>
      dsimp only at h
      split at h <;>
        (simp only [Except.ok.injEq, Prod.mk.injEq] at h; obtain ⟨-, rfl⟩ := h) <;>
        exact ⟨hinv, fun k hk => Or.inl hk⟩
  | constant i =>
    rw [mutateKind.eq_def] at h
    dsimp only at h
    simp only [Except.ok.injEq, Prod.mk.injEq] at h
    obtain ⟨-, rfl⟩ := h
    exact ⟨hinv, fun k hk => Or.inl hk⟩
  | globalVar i =>
    rw [mutateKind.eq_def] at h
    dsimp only at h
    simp only [Except.ok.injEq, Prod.mk.injEq] at h
    obtain ⟨-, rfl⟩ := h
    exact ⟨hinv, fun k hk => Or.inl hk⟩
  | op i =>
    rw [mutateKind.eq_def] at h
    dsimp only at h
    simp only [Except.ok.injEq, Prod.mk.injEq] at h
    obtain ⟨-, rfl⟩ := h
    exact ⟨hinv, fun k hk => Or.inl hk⟩
  | tuple i fields =>
    rw [mutateKind.eq_def] at h
    dsimp only at h
    cases hml : mutateList ov vt fields s with
    | error msg => rw [hml] at h; simp at h
    | ok p =>
      obtain ⟨fields', s₁⟩ := p
      rw [hml] at h
      dsimp only at h
      have hes : ∀ f ∈ fields, f ∈ root.nodes := by
        intro f hf
        refine nodes_trans ?_ he
        simp only [Expr.nodes, List.mem_cons]
        exact Or.inr (mem_nodes_of_mem_list hf)
      obtain ⟨hinv1, hnew1⟩ := mutateList_main hwf fields hes s hinv fields' s₁ hml
      have hlift : ∀ k ∈ s₁.memo.map Prod.fst,
          k ∈ s.memo.map Prod.fst ∨
            ∃ x ∈ (Expr.tuple i fields).nodes, x.eid = k ∧ sizeOf x < sizeOf (Expr.tuple i fields) := by
        intro k hkm
        rcases hnew1 _ hkm with hin | ⟨x, hx, hxe⟩
        · exact Or.inl hin
        · refine Or.inr ⟨x, ?_, hxe, ?_⟩
          · simp only [Expr.nodes, List.mem_cons]
            exact Or.inr hx
          · have h1 := sizeOf_lt_of_mem_nodesList hx
            have h2 : sizeOf (Expr.tuple i fields) = 1 + sizeOf i + sizeOf fields := by simp
            omega
      split at h <;>
        (simp only [Except.ok.injEq, Prod.mk.injEq] at h; obtain ⟨-, rfl⟩ := h)
      · exact ⟨hinv1, hlift⟩
      · exact ⟨MutInv_congr rfl rfl hinv1, hlift⟩
  | function i tyAid tyPs pAid ps rty body attrs =>
    rw [mutateKind.eq_def] at h
    dsimp only at h
    cases hmp : mutateParams ov vt ps (visitTypeListM vt tyPs s).2 with
    | error msg => rw [hmp] at h; simp at h
    | ok p =>
      obtain ⟨ps', s₂⟩ := p
      rw [hmp] at h
      dsimp only at h
      have hinv0 : MutInv (visitTypeListM vt tyPs s).2 :=
        MutInv_congr (by simp) (by simp) hinv
      have hps : ∀ f ∈ ps, f ∈ root.nodes := by
        intro f hf
        refine nodes_trans ?_ he
        simp only [Expr.nodes, List.mem_cons, List.mem_append]
        exact Or.inr (Or.inl (mem_nodes_of_mem_list hf))
      obtain ⟨hinv2, hnew2⟩ := mutateParams_main hwf ps hps _ hinv0 ps' s₂ hmp
      have hbody : body ∈ root.nodes := by
        refine nodes_trans ?_ he
        simp only [Expr.nodes, List.mem_cons, List.mem_append]
        exact Or.inr (Or.inr (mem_nodes_self body))
      cases hmb : mutate ov vt body (visitTypeM vt rty s₂).2 with
      | error msg => rw [hmb] at h; simp at h
      | ok q =>
        obtain ⟨body', s₄⟩ := q
        rw [hmb] at h
        dsimp only at h
        have hinv3 : MutInv (visitTypeM vt rty s₂).2 := MutInv_congr rfl rfl hinv2
        obtain ⟨hinv4, hnew4, -⟩ := mutate_main hwf body hbody _ hinv3 body' s₄ hmb
        have hsz : sizeOf (Expr.function i tyAid tyPs pAid ps rty body attrs) =
            1 + sizeOf i + sizeOf tyAid + sizeOf tyPs + sizeOf pAid + sizeOf ps +
              sizeOf rty + sizeOf body + sizeOf attrs := by simp
        have hlift : ∀ k ∈ s₄.memo.map Prod.fst,
            k ∈ s.memo.map Prod.fst ∨
              ∃ x ∈ (Expr.function i tyAid tyPs pAid ps rty body attrs).nodes,
                x.eid = k ∧
                  sizeOf x < sizeOf (Expr.function i tyAid tyPs pAid ps rty body attrs) := by
          intro k hkm
          rcases hnew4 _ hkm with hin | ⟨x, hx, hxe⟩
          · rcases hnew2 _ hin with hin2 | ⟨x, hx, hxe⟩
            · simpa using Or.inl hin2
            · refine Or.inr ⟨x, ?_, hxe, ?_⟩
              · simp only [Expr.nodes, List.mem_cons, List.mem_append]
                exact Or.inr (Or.inl hx)
              · have h1 := sizeOf_lt_of_mem_nodesList hx
                omega
          · refine Or.inr ⟨x, ?_, hxe, ?_⟩
            · simp only [Expr.nodes, List.mem_cons, List.mem_append]
              exact Or.inr (Or.inr hx)
            · have h1 := sizeOf_le_of_mem_nodes hx
              omega
        split at h <;>
          (simp only [Except.ok.injEq, Prod.mk.injEq] at h; obtain ⟨-, rfl⟩ := h)
        · exact ⟨hinv4, hlift⟩
        · exact ⟨MutInv_congr rfl rfl hinv4, hlift⟩
  | call i callee tyArgs args attrs =>
    rw [mutateKind.eq_def] at h
    dsimp only at h
    cases hmc : mutate ov vt callee s with
    | error msg => rw [hmc] at h; simp at h
    | ok p =>
      obtain ⟨callee', s₁⟩ := p
      rw [hmc] at h
      dsimp only at h
      have hcal : callee ∈ root.nodes := by
        refine nodes_trans ?_ he
        simp only [Expr.nodes, List.mem_cons, List.mem_append]
        exact Or.inr (Or.inl (mem_nodes_self callee))
      obtain ⟨hinv1, hnew1, -⟩ := mutate_main hwf callee hcal s hinv callee' s₁ hmc
      have hargs : ∀ f ∈ args, f ∈ root.nodes := by
        intro f hf
        refine nodes_trans ?_ he
        simp only [Expr.nodes, List.mem_cons, List.mem_append]
        exact Or.inr (Or.inr (mem_nodes_of_mem_list hf))
      cases hma : mutateList ov vt args (visitTypeListM vt tyArgs s₁).2 with
      | error msg => rw [hma] at h; simp at h
      | ok q =>
        obtain ⟨args', s₃⟩ := q
        rw [hma] at h
        dsimp only at h
        have hinv2 : MutInv (visitTypeListM vt tyArgs s₁).2 :=
          MutInv_congr (by simp) (by simp) hinv1
        obtain ⟨hinv3, hnew3⟩ := mutateList_main hwf args hargs _ hinv2 args' s₃ hma
        have hsz : sizeOf (Expr.call i callee tyArgs args attrs) =
            1 + sizeOf i + sizeOf callee + sizeOf tyArgs + sizeOf args + sizeOf attrs := by
          simp
        have hlift : ∀ k ∈ s₃.memo.map Prod.fst,
            k ∈ s.memo.map Prod.fst ∨
              ∃ x ∈ (Expr.call i callee tyArgs args attrs).nodes,
                x.eid = k ∧ sizeOf x < sizeOf (Expr.call i callee tyArgs args attrs) := by
          intro k hkm
          rcases hnew3 _ hkm with hin | ⟨x, hx, hxe⟩
          · have hin1 : k ∈ s₁.memo.map Prod.fst := by simpa using hin
            rcases hnew1 _ hin1 with hin2 | ⟨x, hx, hxe⟩
            · exact Or.inl hin2
            · refine Or.inr ⟨x, ?_, hxe, ?_⟩
              · simp only [Expr.nodes, List.mem_cons, List.mem_append]
                exact Or.inr (Or.inl hx)
              · have h1 := sizeOf_le_of_mem_nodes hx
                omega
          · refine Or.inr ⟨x, ?_, hxe, ?_⟩
            · simp only [Expr.nodes, List.mem_cons, List.mem_append]
              exact Or.inr (Or.inr hx)
            · have h1 := sizeOf_lt_of_mem_nodesList hx
              omega
        split at h <;>
          (simp only [Except.ok.injEq, Prod.mk.injEq] at h; obtain ⟨-, rfl⟩ := h)
        · exact ⟨hinv3, hlift⟩
        · exact ⟨MutInv_congr rfl rfl hinv3, hlift⟩
  | letE i lv value body =>
    rw [mutateKind.eq_def] at h
    dsimp only at h
    cases hv : mutate ov vt lv s with
    | error msg => rw [hv] at h; simp at h
    | ok p =>
      obtain ⟨lv', s₁⟩ := p
      rw [hv] at h
      dsimp only at h
      have hsz : sizeOf (Expr.letE i lv value body) =
          1 + sizeOf i + sizeOf lv + sizeOf value + sizeOf body := by simp
      have hlv : lv ∈ root.nodes := by
        refine nodes_trans ?_ he
        simp only [Expr.nodes, List.mem_cons, List.mem_append, or_assoc]
        exact Or.inr (Or.inl (mem_nodes_self lv))
      obtain ⟨hinv1, hnew1, -⟩ := mutate_main hwf lv hlv s hinv lv' s₁ hv
      split at h
      · simp at h
      · cases hval : mutate ov vt value s₁ with
        | error msg => rw [hval] at h; simp at h
        | ok q =>
          obtain ⟨value', s₂⟩ := q
          rw [hval] at h
          dsimp only at h
          have hvalm : value ∈ root.nodes := by
            refine nodes_trans ?_ he
            simp only [Expr.nodes, List.mem_cons, List.mem_append, or_assoc]
            exact Or.inr (Or.inr (Or.inl (mem_nodes_self value)))
          obtain ⟨hinv2, hnew2, -⟩ := mutate_main hwf value hvalm s₁ hinv1 value' s₂ hval
          cases hb : mutate ov vt body s₂ with
          | error msg => rw [hb] at h; simp at h
          | ok w =>
            obtain ⟨body', s₃⟩ := w
            rw [hb] at h
            dsimp only at h
            have hbm : body ∈ root.nodes := by
              refine nodes_trans ?_ he
              simp only [Expr.nodes, List.mem_cons, List.mem_append, or_assoc]
              exact Or.inr (Or.inr (Or.inr (mem_nodes_self body)))
            obtain ⟨hinv3, hnew3, -⟩ := mutate_main hwf body hbm s₂ hinv2 body' s₃ hb
            have hlift : ∀ k ∈ s₃.memo.map Prod.fst,
                k ∈ s.memo.map Prod.fst ∨
                  ∃ x ∈ (Expr.letE i lv value body).nodes,
                    x.eid = k ∧ sizeOf x < sizeOf (Expr.letE i lv value body) := by
              intro k hkm
              rcases hnew3 _ hkm with hin | ⟨x, hx, hxe⟩
              · rcases hnew2 _ hin with hin2 | ⟨x, hx, hxe⟩
                · rcases hnew1 _ hin2 with hin3 | ⟨x, hx, hxe⟩
                  · exact Or.inl hin3
                  · refine Or.inr ⟨x, ?_, hxe, ?_⟩
                    · simp only [Expr.nodes, List.mem_cons, List.mem_append, or_assoc]
                      exact Or.inr (Or.inl hx)
                    · have h1 := sizeOf_le_of_mem_nodes hx
                      omega
                · refine Or.inr ⟨x, ?_, hxe, ?_⟩
                  · simp only [Expr.nodes, List.mem_cons, List.mem_append, or_assoc]
                    exact Or.inr (Or.inr (Or.inl hx))
                  · have h1 := sizeOf_le_of_mem_nodes hx
                    omega
              · refine Or.inr ⟨x, ?_, hxe, ?_⟩
                · simp only [Expr.nodes, List.mem_cons, List.mem_append, or_assoc]
                  exact Or.inr (Or.inr (Or.inr hx))
                · have h1 := sizeOf_le_of_mem_nodes hx
                  omega
            split at h <;>
              (simp only [Except.ok.injEq, Prod.mk.injEq] at h; obtain ⟨-, rfl⟩ := h)
            · exact ⟨hinv3, hlift⟩
            · exact ⟨MutInv_congr rfl rfl hinv3, hlift⟩
  | ifE i c tb fb =>
    rw [mutateKind.eq_def] at h
    dsimp only at h
    cases hc : mutate ov vt c s with
    | error msg => rw [hc] at h; simp at h
    | ok p =>
      obtain ⟨c', s₁⟩ := p
      rw [hc] at h
      dsimp only at h
      have hsz : sizeOf (Expr.ifE i c tb fb) =
          1 + sizeOf i + sizeOf c + sizeOf tb + sizeOf fb := by simp
      have hcm : c ∈ root.nodes := by
        refine nodes_trans ?_ he
        simp only [Expr.nodes, List.mem_cons, List.mem_append, or_assoc]
        exact Or.inr (Or.inl (mem_nodes_self c))
      obtain ⟨hinv1, hnew1, -⟩ := mutate_main hwf c hcm s hinv c' s₁ hc
      cases ht : mutate ov vt tb s₁ with
      | error msg => rw [ht] at h; simp at h
      | ok q =>
        obtain ⟨tb', s₂⟩ := q
        rw [ht] at h
        dsimp only at h
        have htm : tb ∈ root.nodes := by
          refine nodes_trans ?_ he
          simp only [Expr.nodes, List.mem_cons, List.mem_append, or_assoc]
          exact Or.inr (Or.inr (Or.inl (mem_nodes_self tb)))
        obtain ⟨hinv2, hnew2, -⟩ := mutate_main hwf tb htm s₁ hinv1 tb' s₂ ht
        cases hf : mutate ov vt fb s₂ with
        | error msg => rw [hf] at h; simp at h
        | ok w =>
          obtain ⟨fb', s₃⟩ := w
          rw [hf] at h
          dsimp only at h
          have hfm : fb ∈ root.nodes := by
            refine nodes_trans ?_ he
            simp only [Expr.nodes, List.mem_cons, List.mem_append, or_assoc]
            exact Or.inr (Or.inr (Or.inr (mem_nodes_self fb)))
          obtain ⟨hinv3, hnew3, -⟩ := mutate_main hwf fb hfm s₂ hinv2 fb' s₃ hf
          have hlift : ∀ k ∈ s₃.memo.map Prod.fst,
              k ∈ s.memo.map Prod.fst ∨
                ∃ x ∈ (Expr.ifE i c tb fb).nodes,
                  x.eid = k ∧ sizeOf x < sizeOf (Expr.ifE i c tb fb) := by
            intro k hkm
            rcases hnew3 _ hkm with hin | ⟨x, hx, hxe⟩
            · rcases hnew2 _ hin with hin2 | ⟨x, hx, hxe⟩
              · rcases hnew1 _ hin2 with hin3 | ⟨x, hx, hxe⟩
                · exact Or.inl hin3
                · refine Or.inr ⟨x, ?_, hxe, ?_⟩
                  · simp only [Expr.nodes, List.mem_cons, List.mem_append, or_assoc]
                    exact Or.inr (Or.inl hx)
                  · have h1 := sizeOf_le_of_mem_nodes hx
                    omega
              · refine Or.inr ⟨x, ?_, hxe, ?_⟩
                · simp only [Expr.nodes, List.mem_cons, List.mem_append, or_assoc]
                  exact Or.inr (Or.inr (Or.inl hx))
                · have h1 := sizeOf_le_of_mem_nodes hx
                  omega
            · refine Or.inr ⟨x, ?_, hxe, ?_⟩
              · simp only [Expr.nodes, List.mem_cons, List.mem_append, or_assoc]
                exact Or.inr (Or.inr (Or.inr hx))
              · have h1 := sizeOf_le_of_mem_nodes hx
                omega
          split at h <;>
            (simp only [Except.ok.injEq, Prod.mk.injEq] at h; obtain ⟨-, rfl⟩ := h)
          · exact ⟨hinv3, hlift⟩
          · exact ⟨MutInv_congr rfl rfl hinv3, hlift⟩
  | tupleGetItem i tup idx =>
    rw [mutateKind.eq_def] at h
    dsimp only at h
    cases htp : mutate ov vt tup s with
    | error msg => rw [htp] at h; simp at h
    | ok p =>
      obtain ⟨t', s₁⟩ := p
      rw [htp] at h
      dsimp only at h
      have hsz : sizeOf (Expr.tupleGetItem i tup idx) =
          1 + sizeOf i + sizeOf tup + sizeOf idx := by simp
      have htm : tup ∈ root.nodes := by
        refine nodes_trans ?_ he
        simp only [Expr.nodes, List.mem_cons]
        exact Or.inr (mem_nodes_self tup)
      obtain ⟨hinv1, hnew1, -⟩ := mutate_main hwf tup htm s hinv t' s₁ htp
      have hlift : ∀ k ∈ s₁.memo.map Prod.fst,
          k ∈ s.memo.map Prod.fst ∨
            ∃ x ∈ (Expr.tupleGetItem i tup idx).nodes,
              x.eid = k ∧ sizeOf x < sizeOf (Expr.tupleGetItem i tup idx) := by
        intro k hkm
        rcases hnew1 _ hkm with hin | ⟨x, hx, hxe⟩
        · exact Or.inl hin
        · refine Or.inr ⟨x, ?_, hxe, ?_⟩
          · simp only [Expr.nodes, List.mem_cons]
            exact Or.inr hx
          · have h1 := sizeOf_le_of_mem_nodes hx
            omega
      split at h <;>
        (simp only [Except.ok.injEq, Prod.mk.injEq] at h; obtain ⟨-, rfl⟩ := h)
      · exact ⟨hinv1, hlift⟩
      · exact ⟨MutInv_congr rfl rfl hinv1, hlift⟩
termination_by (sizeOf e, 0)

theorem mutateList_main (hwf : WfDag root) (es : List Expr)
    (hes : ∀ f ∈ es, f ∈ root.nodes) (s : MState) (hinv : MutInv s) (rs : List Expr)
    (s' : MState) (h : mutateList ov vt es s = .ok (rs, s')) :
    MutInv s' ∧
      (∀ k ∈ s'.memo.map Prod.fst,
        k ∈ s.memo.map Prod.fst ∨ ∃ x ∈ nodesList es, x.eid = k) := by
  cases es with
  | nil =>
    rw [mutateList] at h
    simp only [Except.ok.injEq, Prod.mk.injEq] at h
    obtain ⟨-, rfl⟩ := h
    exact ⟨hinv, fun k hk => Or.inl hk⟩
  | cons x xs =>
    rw [mutateList] at h
    cases hx : mutate ov vt x s with
    | error msg => rw [hx] at h; simp at h
    | ok p =>
      obtain ⟨x', s₁⟩ := p
      rw [hx] at h
      dsimp only at h
      obtain ⟨hinv1, hnew1, -⟩ :=
        mutate_main hwf x (hes x (List.mem_cons_self x xs)) s hinv x' s₁ hx
      cases hxs : mutateList ov vt xs s₁ with
      | error msg => rw [hxs] at h; simp at h
      | ok q =>
        obtain ⟨xs', s₂⟩ := q
        rw [hxs] at h
        simp only [Except.ok.injEq, Prod.mk.injEq] at h
        obtain ⟨-, rfl⟩ := h
        obtain ⟨hinv2, hnew2⟩ :=
          mutateList_main hwf xs (fun f hf => hes f (List.mem_cons_of_mem x hf)) s₁ hinv1
            xs' s₂ hxs
        refine ⟨hinv2, ?_⟩
        intro k hkm
        rcases hnew2 _ hkm with hin | ⟨y, hy, hye⟩
        · rcases hnew1 _ hin with hin2 | ⟨y, hy, hye⟩
          · exact Or.inl hin2
          · exact Or.inr ⟨y, by simp [nodesList, hy], hye⟩
        · exact Or.inr ⟨y, by simp [nodesList, hy], hye⟩
termination_by (sizeOf es, 2)

theorem mutateParams_main (hwf : WfDag root) (ps : List Expr)
    (hps : ∀ f ∈ ps, f ∈ root.nodes) (s : MState) (hinv : MutInv s) (rs : List Expr)
    (s' : MState) (h : mutateParams ov vt ps s = .ok (rs, s')) :
    MutInv s' ∧
      (∀ k ∈ s'.memo.map Prod.fst,
        k ∈ s.memo.map Prod.fst ∨ ∃ x ∈ nodesList ps, x.eid = k) := by
  cases ps with
  | nil =>
    rw [mutateParams] at h
    simp only [Except.ok.injEq, Prod.mk.injEq] at h
    obtain ⟨-, rfl⟩ := h
    exact ⟨hinv, fun k hk => Or.inl hk⟩
  | cons x xs =>
    rw [mutateParams] at h
    cases hx : mutate ov vt x s with
    | error msg => rw [hx] at h; simp at h
    | ok p =>
      obtain ⟨x', s₁⟩ := p
      rw [hx] at h
      dsimp only at h
      obtain ⟨hinv1, hnew1, -⟩ :=
        mutate_main hwf x (hps x (List.mem_cons_self x xs)) s hinv x' s₁ hx
      split at h
      · simp at h
      · cases hxs : mutateParams ov vt xs s₁ with
        | error msg => rw [hxs] at h; simp at h
        | ok q =>
          obtain ⟨xs', s₂⟩ := q
          rw [hxs] at h
          simp only [Except.ok.injEq, Prod.mk.injEq] at h
          obtain ⟨-, rfl⟩ := h
          obtain ⟨hinv2, hnew2⟩ :=
            mutateParams_main hwf xs (fun f hf => hps f (List.mem_cons_of_mem x hf)) s₁
              hinv1 xs' s₂ hxs
          refine ⟨hinv2, ?_⟩
          intro k hkm
          rcases hnew2 _ hkm with hin | ⟨y, hy, hye⟩
          · rcases hnew1 _ hin with hin2 | ⟨y, hy, hye⟩
            · exact Or.inl hin2
            · exact Or.inr ⟨y, by simp [nodesList, hy], hye⟩
          · exact Or.inr ⟨y, by simp [nodesList, hy], hye⟩
termination_by (sizeOf ps, 2)

end

end Main

/-! ## Visitor counter lemmas -/

theorem lookupCounter_eq_none_iff {k : Nat} {l : List (Nat × Nat)} :
    lookupCounter k l = none ↔ k ∉ l.map Prod.fst := by
  induction l with
  | nil => simp [lookupCounter]
  | cons p rest ih =>
    obtain ⟨k', v⟩ := p
    by_cases hk : k = k' <;> simp [lookupCounter, hk, ih]

theorem lookupCounter_cons_self (k v : Nat) (l : List (Nat × Nat)) :
    lookupCounter k ((k, v) :: l) = some v := by simp [lookupCounter]

theorem bumpCounter_keys (k : Nat) (l : List (Nat × Nat)) :
    (bumpCounter k l).map Prod.fst = l.map Prod.fst := by
  induction l with
  | nil => rfl
  | cons p rest ih =>
    obtain ⟨k', v⟩ := p
    by_cases hk : k = k' <;> simp [bumpCounter, hk, ih]

theorem lookupCounter_bump_self {k n : Nat} {l : List (Nat × Nat)}
    (h : lookupCounter k l = some n) :
    lookupCounter k (bumpCounter k l) = some (n + 1) := by
  induction l with
  | nil => simp [lookupCounter] at h
  | cons p rest ih =>
    obtain ⟨k', v⟩ := p
    by_cases hk : k = k'
    · subst hk
      rw [lookupCounter_cons_self] at h
      obtain rfl := Option.some.injEq .. ▸ h
      simp [bumpCounter, lookupCounter]
    · rw [lookupCounter, if_neg hk] at h
      simp only [bumpCounter, if_neg hk]
      rw [lookupCounter, if_neg hk]
      exact ih h

/-! ## The visitor invariant

`VInv` states: the callback log has pairwise-distinct identities; every logged node
is a node of the root DAG; the counter keys are exactly the identities of the
logged nodes; and the log is subterm-closed (a node is logged only after all of its
subterms are, so the log of a completed call is closed under subterms). -/

section VMain

variable (root : Expr)

mutual

theorem visit_main (hwf : WfDag root) (e : Expr) (he : e ∈ root.nodes) (s : VState)
    (hinv : VInv root s) :
    VInv root (visit e s) ∧
      (∃ t, (visit e s).vlog = s.vlog ++ t) ∧
      (∀ x ∈ (visit e s).vlog, x ∈ s.vlog ∨ x ∈ e.nodes) ∧
      (∀ x ∈ e.nodes, x ∈ (visit e s).vlog) ∧
      (lookupCounter e.eid s.counter = none →
        lookupCounter e.eid (visit e s).counter = some 1) := by
  cases hl : lookupCounter e.eid s.counter with
  | some n =>
    have hv : visit e s = { s with counter := bumpCounter e.eid s.counter } := by
      rw [visit, hl]
    rw [hv]
    refine ⟨⟨hinv.1, hinv.2.1, ?_, hinv.2.2.2⟩, ⟨[], by simp⟩, fun x hx => Or.inl hx, ?_, ?_⟩
    · intro k
      simpa [bumpCounter_keys] using hinv.2.2.1 k
    · intro x hx
      have hkey : e.eid ∈ s.counter.map Prod.fst := by
        by_contra hc
        rw [← lookupCounter_eq_none_iff] at hc
        rw [hc] at hl
        cases hl
      obtain ⟨y, hy, hye⟩ := (hinv.2.2.1 e.eid).1 hkey
      have hyr : y ∈ root.nodes := hinv.2.1 y hy
      have : y = e := hwf y hyr e he hye
      subst this
      exact hinv.2.2.2 y hy x hx
    · intro hcontra
      simp [hl] at hcontra
  | none =>
    have hv : visit e s =
        { counter := insertCounter e.eid 1 (visitKind e s).counter,
          vlog := (visitKind e s).vlog ++ [e] } := by
      rw [visit, hl]
    rw [hv]
    have hne : e.eid ∉ s.counter.map Prod.fst := lookupCounter_eq_none_iff.1 hl
    obtain ⟨hinv1, ⟨t, ht⟩, hprov1, hcomp1⟩ := visitKind_main hwf e he s hinv
    have henotin : ∀ y ∈ (visitKind e s).vlog, y.eid ≠ e.eid := by
      intro y hy hye
      rcases hprov1 y hy with hin | ⟨hyn, hys⟩
      · have : e.eid ∈ s.counter.map Prod.fst :=
          (hinv.2.2.1 e.eid).2 ⟨y, hin, hye⟩
        exact hne this
      · have hyr : y ∈ root.nodes := nodes_trans hyn he
        have : y = e := hwf y hyr e he hye
        subst this
        omega
    have hkeynotin : e.eid ∉ (visitKind e s).counter.map Prod.fst := by
      intro hc
      obtain ⟨y, hy, hye⟩ := (hinv1.2.2.1 e.eid).1 hc
      exact henotin y hy hye
    have hins : insertCounter e.eid 1 (visitKind e s).counter =
        (e.eid, 1) :: (visitKind e s).counter := by
      unfold insertCounter
      rw [lookupCounter_eq_none_iff.2 hkeynotin]
    refine ⟨⟨?_, ?_, ?_, ?_⟩, ⟨t ++ [e], by simp [ht]⟩, ?_, ?_, ?_⟩
    · simp only [List.map_append, List.map_cons, List.map_nil]
      rw [List.nodup_append]
      refine ⟨hinv1.1, List.nodup_singleton _, ?_⟩
      intro a ha hb
      simp only [List.mem_map] at ha
      obtain ⟨y, hy, hye⟩ := ha
      simp only [List.mem_singleton, List.not_mem_nil, or_false] at hb
      subst hb
      exact henotin y hy hye
    · intro y hy
      simp only [List.mem_append, List.mem_singleton, List.not_mem_nil, or_false] at hy
      rcases hy with hy | rfl
      · exact hinv1.2.1 y hy
      · exact he
    · intro k
      rw [hins]
      simp only [List.map_cons, List.mem_cons, List.mem_append, List.mem_singleton, List.not_mem_nil, or_false]
      constructor
      · intro hk
        rcases hk with rfl | hk
        · exact ⟨e, Or.inr rfl, rfl⟩
        · obtain ⟨y, hy, hye⟩ := (hinv1.2.2.1 k).1 hk
          exact ⟨y, Or.inl hy, hye⟩
      · rintro ⟨y, hy | rfl, hye⟩
        · exact Or.inr ((hinv1.2.2.1 k).2 ⟨y, hy, hye⟩)
        · exact Or.inl hye.symm
    · intro y hy x hx
      simp only [List.mem_append, List.mem_singleton, List.not_mem_nil, or_false] at hy ⊢
      rcases hy with hy | rfl
      · exact Or.inl (hinv1.2.2.2 y hy x hx)
      · rcases hcomp1 x hx with rfl | hx1
        · exact Or.inr rfl
        · exact Or.inl hx1
    · intro x hx
      simp only [List.mem_append, List.mem_singleton, List.not_mem_nil, or_false] at hx
      rcases hx with hx | rfl
      · rcases hprov1 x hx with hin | ⟨hxn, -⟩
        · exact Or.inl hin
        · exact Or.inr hxn
      · exact Or.inr (mem_nodes_self _)
    · intro x hx
      simp only [List.mem_append, List.mem_singleton, List.not_mem_nil, or_false]
      rcases hcomp1 x hx with rfl | hx1
      · exact Or.inr rfl
      · exact Or.inl hx1
    · intro _
      rw [hins]
      exact lookupCounter_cons_self _ _ _
termination_by (sizeOf e, 1)

theorem visitKind_main (hwf : WfDag root) (e : Expr) (he : e ∈ root.nodes) (s : VState)
    (hinv : VInv root s) :
    VInv root (visitKind e s) ∧
      (∃ t, (visitKind e s).vlog = s.vlog ++ t) ∧
      (∀ x ∈ (visitKind e s).vlog,
        x ∈ s.vlog ∨ (x ∈ e.nodes ∧ sizeOf x < sizeOf e)) ∧
      (∀ x ∈ e.nodes, x = e ∨ x ∈ (visitKind e s).vlog) := by
  cases e with
  | var i nm ann =>
    rw [visitKind]
    refine ⟨hinv, ⟨[], by simp⟩, fun x hx => Or.inl hx, ?_⟩
    intro x hx
    simp only [Expr.nodes, List.mem_singleton, List.not_mem_nil, or_false] at hx
    exact Or.inl hx
  | constant i =>
    rw [visitKind]
    refine ⟨hinv, ⟨[], by simp⟩, fun x hx => Or.inl hx, ?_⟩
    intro x hx
    simp only [Expr.nodes, List.mem_singleton, List.not_mem_nil, or_false] at hx
    exact Or.inl hx
  | globalVar i =>
    rw [visitKind]
    refine ⟨hinv, ⟨[], by simp⟩, fun x hx => Or.inl hx, ?_⟩
    intro x hx
    simp only [Expr.nodes, List.mem_singleton, List.not_mem_nil, or_false] at hx
    exact Or.inl hx
  | op i =>
    rw [visitKind]
    refine ⟨hinv, ⟨[], by simp⟩, fun x hx => Or.inl hx, ?_⟩
    intro x hx
    simp only [Expr.nodes, List.mem_singleton, List.not_mem_nil, or_false] at hx
    exact Or.inl hx
  | tuple i fields =>
    rw [visitKind]
    have hes : ∀ f ∈ fields, f ∈ root.nodes := by
      intro f hf
      refine nodes_trans ?_ he
      simp only [Expr.nodes, List.mem_cons]
      exact Or.inr (mem_nodes_of_mem_list hf)
    obtain ⟨hinv1, ⟨t, ht⟩, hprov1, hcomp1⟩ := visitList_main hwf fields hes s hinv
    have hsz : sizeOf (Expr.tuple i fields) = 1 + sizeOf i + sizeOf fields := by simp
    refine ⟨hinv1, ⟨t, ht⟩, ?_, ?_⟩
    · intro x hx
      rcases hprov1 x hx with hin | hxn
      · exact Or.inl hin
      · refine Or.inr ⟨?_, ?_⟩
        · simp only [Expr.nodes, List.mem_cons]
          exact Or.inr hxn
        · have h1 := sizeOf_lt_of_mem_nodesList hxn
          omega
    · intro x hx
      simp only [Expr.nodes, List.mem_cons] at hx
      rcases hx with rfl | hx
      · exact Or.inl rfl
      · exact Or.inr (hcomp1 x hx)
  | function i tyAid tyPs pAid ps rty body attrs =>
    rw [visitKind]
    have hps : ∀ f ∈ ps, f ∈ root.nodes := by
      intro f hf
      refine nodes_trans ?_ he
      simp only [Expr.nodes, List.mem_cons, List.mem_append]
      exact Or.inr (Or.inl (mem_nodes_of_mem_list hf))
    obtain ⟨hinv1, ⟨t1, ht1⟩, hprov1, hcomp1⟩ := visitList_main hwf ps hps s hinv
    have hbody : body ∈ root.nodes := by
      refine nodes_trans ?_ he
      simp only [Expr.nodes, List.mem_cons, List.mem_append]
      exact Or.inr (Or.inr (mem_nodes_self body))
    obtain ⟨hinv2, ⟨t2, ht2⟩, hprov2, hcomp2, -⟩ :=
      visit_main hwf body hbody (visitList ps s) hinv1
    have hsz : sizeOf (Expr.function i tyAid tyPs pAid ps rty body attrs) =
        1 + sizeOf i + sizeOf tyAid + sizeOf tyPs + sizeOf pAid + sizeOf ps +
          sizeOf rty + sizeOf body + sizeOf attrs := by simp
    refine ⟨hinv2, ⟨t1 ++ t2, by rw [ht2, ht1, List.append_assoc]⟩, ?_, ?_⟩
    · intro x hx
      rcases hprov2 x hx with hin | hxn
      · rcases hprov1 x hin with hin2 | hxn
        · exact Or.inl hin2
        · refine Or.inr ⟨?_, ?_⟩
          · simp only [Expr.nodes, List.mem_cons, List.mem_append]
            exact Or.inr (Or.inl hxn)
          · have h1 := sizeOf_lt_of_mem_nodesList hxn
            omega
      · refine Or.inr ⟨?_, ?_⟩
        · simp only [Expr.nodes, List.mem_cons, List.mem_append]
          exact Or.inr (Or.inr hxn)
        · have h1 := sizeOf_le_of_mem_nodes hxn
          omega
    · intro x hx
      simp only [Expr.nodes, List.mem_cons, List.mem_append] at hx
      rcases hx with rfl | hx | hx
      · exact Or.inl rfl
      · refine Or.inr ?_
        rw [ht2]
        exact List.mem_append_left _ (hcomp1 x hx)
      · exact Or.inr (hcomp2 x hx)
  | call i callee tyArgs args attrs =>
    rw [visitKind]
    have hcal : callee ∈ root.nodes := by
      refine nodes_trans ?_ he
      simp only [Expr.nodes, List.mem_cons, List.mem_append]
      exact Or.inr (Or.inl (mem_nodes_self callee))
    obtain ⟨hinv1, ⟨t1, ht1⟩, hprov1, hcomp1, -⟩ := visit_main hwf callee hcal s hinv
    have hargs : ∀ f ∈ args, f ∈ root.nodes := by
      intro f hf
      refine nodes_trans ?_ he
      simp only [Expr.nodes, List.mem_cons, List.mem_append]
      exact Or.inr (Or.inr (mem_nodes_of_mem_list hf))
    obtain ⟨hinv2, ⟨t2, ht2⟩, hprov2, hcomp2⟩ :=
      visitList_main hwf args hargs (visit callee s) hinv1
    have hsz : sizeOf (Expr.call i callee tyArgs args attrs) =
        1 + sizeOf i + sizeOf callee + sizeOf tyArgs + sizeOf args + sizeOf attrs := by
      simp
    refine ⟨hinv2, ⟨t1 ++ t2, by rw [ht2, ht1, List.append_assoc]⟩, ?_, ?_⟩
    · intro x hx
      rcases hprov2 x hx with hin | hxn
      · rcases hprov1 x hin with hin2 | hxn
        · exact Or.inl hin2
        · refine Or.inr ⟨?_, ?_⟩
          · simp only [Expr.nodes, List.mem_cons, List.mem_append]
            exact Or.inr (Or.inl hxn)
          · have h1 := sizeOf_le_of_mem_nodes hxn
            omega
      · refine Or.inr ⟨?_, ?_⟩
        · simp only [Expr.nodes, List.mem_cons, List.mem_append]
          exact Or.inr (Or.inr hxn)
        · have h1 := sizeOf_lt_of_mem_nodesList hxn
          omega
    · intro x hx
      simp only [Expr.nodes, List.mem_cons, List.mem_append] at hx
      rcases hx with rfl | hx | hx
      · exact Or.inl rfl
      · refine Or.inr ?_
        rw [ht2]
        exact List.mem_append_left _ (hcomp1 x hx)
      · exact Or.inr (hcomp2 x hx)
  | letE i lv value body =>
    rw [visitKind]
    have hsz : sizeOf (Expr.letE i lv value body) =
        1 + sizeOf i + sizeOf lv + sizeOf value + sizeOf body := by simp
    have hvm : value ∈ root.nodes := by
      refine nodes_trans ?_ he
      simp only [Expr.nodes, List.mem_cons, List.mem_append, or_assoc]
      exact Or.inr (Or.inr (Or.inl (mem_nodes_self value)))
    have hlm : lv ∈ root.nodes := by
      refine nodes_trans ?_ he
      simp only [Expr.nodes, List.mem_cons, List.mem_append, or_assoc]
      exact Or.inr (Or.inl (mem_nodes_self lv))
    have hbm : body ∈ root.nodes := by
      refine nodes_trans ?_ he
      simp only [Expr.nodes, List.mem_cons, List.mem_append, or_assoc]
      exact Or.inr (Or.inr (Or.inr (mem_nodes_self body)))
    obtain ⟨hinv1, ⟨t1, ht1⟩, hprov1, hcomp1, -⟩ := visit_main hwf value hvm s hinv
    obtain ⟨hinv2, ⟨t2, ht2⟩, hprov2, hcomp2, -⟩ :=
      visit_main hwf lv hlm (visit value s) hinv1
    obtain ⟨hinv3, ⟨t3, ht3⟩, hprov3, hcomp3, -⟩ :=
      visit_main hwf body hbm (visit lv (visit value s)) hinv2
    refine ⟨hinv3, ⟨t1 ++ (t2 ++ t3), by rw [ht3, ht2, ht1]; simp⟩, ?_, ?_⟩
    · intro x hx
      rcases hprov3 x hx with hin | hxn
      · rcases hprov2 x hin with hin2 | hxn
        · rcases hprov1 x hin2 with hin3 | hxn
          · exact Or.inl hin3
          · refine Or.inr ⟨?_, ?_⟩
            · simp only [Expr.nodes, List.mem_cons, List.mem_append, or_assoc]
              exact Or.inr (Or.inr (Or.inl hxn))
            · have h1 := sizeOf_le_of_mem_nodes hxn
              omega
        · refine Or.inr ⟨?_, ?_⟩
          · simp only [Expr.nodes, List.mem_cons, List.mem_append, or_assoc]
            exact Or.inr (Or.inl hxn)
          · have h1 := sizeOf_le_of_mem_nodes hxn
            omega
      · refine Or.inr ⟨?_, ?_⟩
        · simp only [Expr.nodes, List.mem_cons, List.mem_append, or_assoc]
          exact Or.inr (Or.inr (Or.inr hxn))
        · have h1 := sizeOf_le_of_mem_nodes hxn
          omega
    · intro x hx
      simp only [Expr.nodes, List.mem_cons, List.mem_append, or_assoc] at hx
      rcases hx with rfl | hx | hx | hx
      · exact Or.inl rfl
      · refine Or.inr ?_
        rw [ht3]
        exact List.mem_append_left _ (hcomp2 x hx)
      · refine Or.inr ?_
        rw [ht3, ht2]
        exact List.mem_append_left _ (List.mem_append_left _ (hcomp1 x hx))
      · exact Or.inr (hcomp3 x hx)
  | ifE i c tb fb =>
    rw [visitKind]
    have hsz : sizeOf (Expr.ifE i c tb fb) =
        1 + sizeOf i + sizeOf c + sizeOf tb + sizeOf fb := by simp
    have hcm : c ∈ root.nodes := by
      refine nodes_trans ?_ he
      simp only [Expr.nodes, List.mem_cons, List.mem_append, or_assoc]
      exact Or.inr (Or.inl (mem_nodes_self c))
    have htm : tb ∈ root.nodes := by
      refine nodes_trans ?_ he
      simp only [Expr.nodes, List.mem_cons, List.mem_append, or_assoc]
      exact Or.inr (Or.inr (Or.inl (mem_nodes_self tb)))
    have hfm : fb ∈ root.nodes := by
      refine nodes_trans ?_ he
      simp only [Expr.nodes, List.mem_cons, List.mem_append, or_assoc]
      exact Or.inr (Or.inr (Or.inr (mem_nodes_self fb)))
    obtain ⟨hinv1, ⟨t1, ht1⟩, hprov1, hcomp1, -⟩ := visit_main hwf c hcm s hinv
    obtain ⟨hinv2, ⟨t2, ht2⟩, hprov2, hcomp2, -⟩ := visit_main hwf tb htm (visit c s) hinv1
    obtain ⟨hinv3, ⟨t3, ht3⟩, hprov3, hcomp3, -⟩ :=
      visit_main hwf fb hfm (visit tb (visit c s)) hinv2
    refine ⟨hinv3, ⟨t1 ++ (t2 ++ t3), by rw [ht3, ht2, ht1]; simp⟩, ?_, ?_⟩
    · intro x hx
      rcases hprov3 x hx with hin | hxn
      · rcases hprov2 x hin with hin2 | hxn
        · rcases hprov1 x hin2 with hin3 | hxn
          · exact Or.inl hin3
          · refine Or.inr ⟨?_, ?_⟩
            · simp only [Expr.nodes, List.mem_cons, List.mem_append, or_assoc]
              exact Or.inr (Or.inl hxn)
            · have h1 := sizeOf_le_of_mem_nodes hxn
              omega
        · refine Or.inr ⟨?_, ?_⟩
          · simp only [Expr.nodes, List.mem_cons, List.mem_append, or_assoc]
            exact Or.inr (Or.inr (Or.inl hxn))
          · have h1 := sizeOf_le_of_mem_nodes hxn
            omega
      · refine Or.inr ⟨?_, ?_⟩
        · simp only [Expr.nodes, List.mem_cons, List.mem_append, or_assoc]
          exact Or.inr (Or.inr (Or.inr hxn))
        · have h1 := sizeOf_le_of_mem_nodes hxn
          omega
    · intro x hx
      simp only [Expr.nodes, List.mem_cons, List.mem_append, or_assoc] at hx
      rcases hx with rfl | hx | hx | hx
      · exact Or.inl rfl
      · refine Or.inr ?_
        rw [ht3, ht2]
        exact List.mem_append_left _ (List.mem_append_left _ (hcomp1 x hx))
      · refine Or.inr ?_
        rw [ht3]
        exact List.mem_append_left _ (hcomp2 x hx)
      · exact Or.inr (hcomp3 x hx)
  | tupleGetItem i tup idx =>
    rw [visitKind]
    have hsz : sizeOf (Expr.tupleGetItem i tup idx) =
        1 + sizeOf i + sizeOf tup + sizeOf idx := by simp
    have htm : tup ∈ root.nodes := by
      refine nodes_trans ?_ he
      simp only [Expr.nodes, List.mem_cons]
      exact Or.inr (mem_nodes_self tup)
    obtain ⟨hinv1, ⟨t1, ht1⟩, hprov1, hcomp1, -⟩ := visit_main hwf tup htm s hinv
    refine ⟨hinv1, ⟨t1, ht1⟩, ?_, ?_⟩
    · intro x hx
      rcases hprov1 x hx with hin | hxn
      · exact Or.inl hin
      · refine Or.inr ⟨?_, ?_⟩
        · simp only [Expr.nodes, List.mem_cons]
          exact Or.inr hxn
        · have h1 := sizeOf_le_of_mem_nodes hxn
          omega
    · intro x hx
      simp only [Expr.nodes, List.mem_cons] at hx
      rcases hx with rfl | hx
      · exact Or.inl rfl
      · exact Or.inr (hcomp1 x hx)
termination_by (sizeOf e, 0)

theorem visitList_main (hwf : WfDag root) (es : List Expr)
    (hes : ∀ f ∈ es, f ∈ root.nodes) (s : VState) (hinv : VInv root s) :
    VInv root (visitList es s) ∧
      (∃ t, (visitList es s).vlog = s.vlog ++ t) ∧
      (∀ x ∈ (visitList es s).vlog, x ∈ s.vlog ∨ x ∈ nodesList es) ∧
      (∀ x ∈ nodesList es, x ∈ (visitList es s).vlog) := by
  cases es with
  | nil =>
    rw [visitList]
    refine ⟨hinv, ⟨[], by simp⟩, fun x hx => Or.inl hx, ?_⟩
    intro x hx
    simp [nodesList] at hx
  | cons x xs =>
    rw [visitList]
    obtain ⟨hinv1, ⟨t1, ht1⟩, hprov1, hcomp1, -⟩ :=
      visit_main hwf x (hes x (List.mem_cons_self x xs)) s hinv
    obtain ⟨hinv2, ⟨t2, ht2⟩, hprov2, hcomp2⟩ :=
      visitList_main hwf xs (fun f hf => hes f (List.mem_cons_of_mem x hf)) (visit x s)
        hinv1
    refine ⟨hinv2, ⟨t1 ++ t2, by rw [ht2, ht1]; simp⟩, ?_, ?_⟩
    · intro y hy
      rcases hprov2 y hy with hin | hyn
      · rcases hprov1 y hin with hin2 | hyn
        · exact Or.inl hin2
        · exact Or.inr (by simp [nodesList, hyn])
      · exact Or.inr (by simp [nodesList, hyn])
    · intro y hy
      simp only [nodesList, List.mem_append] at hy
      rcases hy with hy | hy
      · rw [ht2]
        exact List.mem_append_left _ (hcomp1 y hy)
      · exact hcomp2 y hy
termination_by (sizeOf es, 2)

end

end VMain

/-! ## Claim-level helper lemmas -/

/-- A tagged tree whose node identities are pairwise distinct is a well-formed
rendering of an object DAG. -/
theorem wf_of_nodup_eids {root : Expr} (h : (root.nodes.map Expr.eid).Nodup) :
    WfDag root :=
  fun a ha b hb hab => List.inj_on_of_nodup_map h ha hb hab

/-- Cache hit: the memoized result is returned and the state is untouched — no
recomputation, no child visits. -/
theorem mutate_hit (ov : Expr → Option Expr) (vt : Ty → Ty) (e : Expr) (s : MState)
    (r : Expr) (h : lookupMemo e.eid s.memo = some r) :
    mutate ov vt e s = .ok (r, s) := by
  rw [mutate, h]

/-- Cache miss: after a successful rewrite, the result is stored keyed by the
original node's identity. -/
theorem mutate_store (ov : Expr → Option Expr) (vt : Ty → Ty) (e : Expr) (s : MState)
    (r : Expr) (s' : MState) (hl : lookupMemo e.eid s.memo = none)
    (h : mutate ov vt e s = .ok (r, s')) :
    lookupMemo e.eid s'.memo = some r := by
  rw [mutate, hl] at h
  cases ho : ov e with
  | some r0 =>
    rw [ho] at h
    simp only [Except.ok.injEq, Prod.mk.injEq] at h
    obtain ⟨rfl, rfl⟩ := h
    exact lookupMemo_cons_self _ _ _
  | none =>
    rw [ho] at h
    cases hk : mutateKind ov vt e s with
    | error msg => rw [hk] at h; simp at h
    | ok p =>
      obtain ⟨r1, s₁⟩ := p
      rw [hk] at h
      simp only [Except.ok.injEq, Prod.mk.injEq] at h
      obtain ⟨rfl, rfl⟩ := h
      exact lookupMemo_cons_self _ _ _

/-- Starting from a fresh instance on a well-formed DAG, the identities in the
rewrite-computation log are pairwise distinct: the kind-specific rewrite runs at
most once per node identity. -/
theorem mutate_log_nodup (ov : Expr → Option Expr) (vt : Ty → Ty) {root : Expr}
    (hwf : WfDag root) (n : Nat) {r : Expr} {s' : MState}
    (h : mutate ov vt root (initM n) = .ok (r, s')) :
    (s'.log.map Expr.eid).Nodup := by
  have hinv : MutInv (initM n) := ⟨List.nodup_nil, rfl⟩
  obtain ⟨⟨h1, h2⟩, -, -⟩ :=
    mutate_main ov vt root hwf root (mem_nodes_self root) _ hinv r s' h
  rw [h2]
  exact List.nodup_reverse.2 h1

/-- Starting from a fresh instance on a well-formed DAG, the memo keys are pairwise
distinct at the end of the pass: no binding is ever overwritten. -/
theorem mutate_memo_nodup (ov : Expr → Option Expr) (vt : Ty → Ty) {root : Expr}
    (hwf : WfDag root) (n : Nat) {r : Expr} {s' : MState}
    (h : mutate ov vt root (initM n) = .ok (r, s')) :
    (s'.memo.map Prod.fst).Nodup := by
  have hinv : MutInv (initM n) := ⟨List.nodup_nil, rfl⟩
  obtain ⟨⟨h1, -⟩, -, -⟩ :=
    mutate_main ov vt root hwf root (mem_nodes_self root) _ hinv r s' h
  exact h1

/-- A fresh visitor instance satisfies the visitor invariant. -/
theorem initV_inv (root : Expr) : VInv root initV := by
  refine ⟨List.nodup_nil, ?_, ?_, ?_⟩ <;> simp [initV]

/-! ## The claims -/

/-- C8: For every `Constant`, `GlobalVar`, and `Op` node, the mutator's default
rewrite (`VisitExpr_`) always returns the original node reference unchanged by
identity, for all inputs, all states and regardless of the type hook (and of any
overrides installed for other kinds). -/
theorem claim_C8_terminals_unchanged :
    ∀ (ov : Expr → Option Expr) (vt : Ty → Ty) (i : Nat) (s : MState),
      mutateKind ov vt (.constant i) s = .ok (.constant i, s) ∧
      mutateKind ov vt (.globalVar i) s = .ok (.globalVar i, s) ∧
      mutateKind ov vt (.op i) s = .ok (.op i, s) := by
  intro ov vt i s
  refine ⟨?_, ?_, ?_⟩ <;> (rw [mutateKind.eq_def])

/-- C10: The default `Var` handler: with no type annotation it returns the original
`Var` and does not invoke the type hook at all (the returned state is exactly the
input state — in particular the hook-invocation log is untouched); with an
annotation it invokes the hook exactly once, and builds a new `Var` (fresh
identity, same name hint, rewritten annotation) only when the rewritten
annotation differs by identity, returning the original `Var` otherwise. -/
theorem claim_C10_var_hook :
    (∀ (ov : Expr → Option Expr) (vt : Ty → Ty) (i : Nat) (nm : String) (s : MState),
      mutateKind ov vt (.var i nm none) s = .ok (.var i nm none, s)) ∧
    (∀ (ov : Expr → Option Expr) (vt : Ty → Ty) (i : Nat) (nm : String) (t : Ty)
        (s : MState), vt t = t →
      mutateKind ov vt (.var i nm (some t)) s =
        .ok (.var i nm (some t), { s with tlog := s.tlog ++ [t] })) ∧
    (∀ (ov : Expr → Option Expr) (vt : Ty → Ty) (i : Nat) (nm : String) (t : Ty)
        (s : MState), vt t ≠ t →
      mutateKind ov vt (.var i nm (some t)) s =
        .ok (.var s.fresh nm (some (vt t)),
          bumpFresh { s with tlog := s.tlog ++ [t] })) := by
  refine ⟨?_, ?_, ?_⟩
  · intro ov vt i nm s
    rw [mutateKind.eq_def]
  · intro ov vt i nm t s h
    rw [mutateKind.eq_def]
    simp [visitTypeM, h]
  · intro ov vt i nm t s h
    rw [mutateKind.eq_def]
    simp [visitTypeM, h, bumpFresh]

/-- C10 witness: concrete instances discharging the hypotheses of the second and
third conjuncts (identity hook leaves the `Var` alone; a changing hook builds a
new `Var` with the same name hint). -/
theorem claim_C10_var_hook_witness :
    mutateKind noOverride id (.var 4 "w" (some 9)) (initM 40) =
      .ok (.var 4 "w" (some 9), { initM 40 with tlog := [9] }) ∧
    mutateKind noOverride (fun t => t + 1) (.var 4 "w" (some 9)) (initM 40) =
      .ok (.var 40 "w" (some 10), bumpFresh { initM 40 with tlog := [9] }) := by
  constructor
  · exact claim_C10_var_hook.2.1 noOverride id 4 "w" 9 (initM 40) rfl
  · exact claim_C10_var_hook.2.2 noOverride (fun t => t + 1) 4 "w" 9 (initM 40) (by decide)

/-- C3: the structural-sharing rule of the default handlers for `Tuple`, `Call`,
`Let`, `If` and `TupleGetItem`: when every rewritten child (and, for `Call`, every
rewritten type argument and the callee) is identity-equal to the original, the
handler returns the original node reference itself; when any differs, it builds
and returns a new node of the same kind carrying the new children — a node with a
fresh identity, hence not identity-equal to the original (given that the original
identity lies below the allocation counter). -/
theorem claim_C3_structural_sharing :
    (∀ (ov : Expr → Option Expr) (vt : Ty → Ty) (i : Nat) (fields fields' : List Expr)
        (s s₁ : MState), mutateList ov vt fields s = .ok (fields', s₁) → i < s.fresh →
      (allSame fields' fields = true →
        mutateKind ov vt (.tuple i fields) s = .ok (.tuple i fields, s₁)) ∧
      (allSame fields' fields = false →
        mutateKind ov vt (.tuple i fields) s =
            .ok (.tuple s₁.fresh fields', bumpFresh s₁) ∧
          (Expr.tuple s₁.fresh fields').sameAs (.tuple i fields) = false)) ∧
    (∀ (ov : Expr → Option Expr) (vt : Ty → Ty) (i : Nat) (callee : Expr)
        (tyArgs : List Ty) (args : List Expr) (attrs : Nat) (s : MState)
        (callee' : Expr) (s₁ : MState) (args' : List Expr) (s₃ : MState),
      mutate ov vt callee s = .ok (callee', s₁) →
      mutateList ov vt args (visitTypeListM vt tyArgs s₁).2 = .ok (args', s₃) →
      i < s.fresh →
      ((callee'.sameAs callee && allSameTy (visitTypeListM vt tyArgs s₁).1 tyArgs &&
          allSame args' args) = true →
        mutateKind ov vt (.call i callee tyArgs args attrs) s =
          .ok (.call i callee tyArgs args attrs, s₃)) ∧
      ((callee'.sameAs callee && allSameTy (visitTypeListM vt tyArgs s₁).1 tyArgs &&
          allSame args' args) = false →
        mutateKind ov vt (.call i callee tyArgs args attrs) s =
            .ok (.call s₃.fresh callee' (visitTypeListM vt tyArgs s₁).1 args' attrs,
              bumpFresh s₃) ∧
          (Expr.call s₃.fresh callee' (visitTypeListM vt tyArgs s₁).1 args'
              attrs).sameAs (.call i callee tyArgs args attrs) = false)) ∧
    (∀ (ov : Expr → Option Expr) (vt : Ty → Ty) (i : Nat) (lv value body : Expr)
        (s : MState) (lv' : Expr) (s₁ : MState) (value' : Expr) (s₂ : MState)
        (body' : Expr) (s₃ : MState),
      mutate ov vt lv s = .ok (lv', s₁) → lv'.isVar = true →
      mutate ov vt value s₁ = .ok (value', s₂) →
      mutate ov vt body s₂ = .ok (body', s₃) → i < s.fresh →
      ((lv'.sameAs lv && value'.sameAs value && body'.sameAs body) = true →
        mutateKind ov vt (.letE i lv value body) s = .ok (.letE i lv value body, s₃)) ∧
      ((lv'.sameAs lv && value'.sameAs value && body'.sameAs body) = false →
        mutateKind ov vt (.letE i lv value body) s =
            .ok (.letE s₃.fresh lv' value' body', bumpFresh s₃) ∧
          (Expr.letE s₃.fresh lv' value' body').sameAs (.letE i lv value body)
            = false)) ∧
    (∀ (ov : Expr → Option Expr) (vt : Ty → Ty) (i : Nat) (c tb fb : Expr)
        (s : MState) (c' : Expr) (s₁ : MState) (tb' : Expr) (s₂ : MState)
        (fb' : Expr) (s₃ : MState),
      mutate ov vt c s = .ok (c', s₁) →
      mutate ov vt tb s₁ = .ok (tb', s₂) →
      mutate ov vt fb s₂ = .ok (fb', s₃) → i < s.fresh →
      ((c.sameAs c' && tb.sameAs tb' && fb.sameAs fb') = true →
        mutateKind ov vt (.ifE i c tb fb) s = .ok (.ifE i c tb fb, s₃)) ∧
      ((c.sameAs c' && tb.sameAs tb' && fb.sameAs fb') = false →
        mutateKind ov vt (.ifE i c tb fb) s =
            .ok (.ifE s₃.fresh c' tb' fb', bumpFresh s₃) ∧
          (Expr.ifE s₃.fresh c' tb' fb').sameAs (.ifE i c tb fb) = false)) ∧
    (∀ (ov : Expr → Option Expr) (vt : Ty → Ty) (i : Nat) (tup : Expr) (idx : Nat)
        (s : MState) (t' : Expr) (s₁ : MState),
      mutate ov vt tup s = .ok (t', s₁) → i < s.fresh →
      (tup.sameAs t' = true →
        mutateKind ov vt (.tupleGetItem i tup idx) s =
          .ok (.tupleGetItem i tup idx, s₁)) ∧
      (tup.sameAs t' = false →
        mutateKind ov vt (.tupleGetItem i tup idx) s =
            .ok (.tupleGetItem s₁.fresh t' idx, bumpFresh s₁) ∧
          (Expr.tupleGetItem s₁.fresh t' idx).sameAs (.tupleGetItem i tup idx)
            = false)) := by
  refine ⟨?_, ?_, ?_, ?_, ?_⟩
  · intro ov vt i fields fields' s s₁ hml hfr
    have hmono := (mutateList_mono ov vt fields s fields' s₁ hml).2
    constructor
    · intro hall
      rw [mutateKind.eq_def]
      dsimp only
      rw [hml]
      dsimp only
      rw [hall]
      simp
    · intro hall
      rw [mutateKind.eq_def]
      dsimp only
      rw [hml]
      dsimp only
      rw [hall]
      refine ⟨by simp, ?_⟩
      simp only [Expr.sameAs, Expr.eid, beq_eq_false_iff_ne, ne_eq]
      omega
  · intro ov vt i callee tyArgs args attrs s callee' s₁ args' s₃ hc hml hfr
    have hm1 := (mutate_mono ov vt callee s callee' s₁ hc).2
    have hm2 := (mutateList_mono ov vt args _ args' s₃ hml).2
    have hm2' : s₁.fresh ≤ s₃.fresh := by
      have : (visitTypeListM vt tyArgs s₁).2.fresh = s₁.fresh := by simp
      omega
    constructor
    · intro hall
      rw [mutateKind.eq_def]
      dsimp only
      rw [hc]
      dsimp only
      rw [hml]
      dsimp only
      rw [hall]
      simp
    · intro hall
      rw [mutateKind.eq_def]
      dsimp only
      rw [hc]
      dsimp only
      rw [hml]
      dsimp only
      rw [hall]
      refine ⟨by simp, ?_⟩
      simp only [Expr.sameAs, Expr.eid, beq_eq_false_iff_ne, ne_eq]
      omega
  · intro ov vt i lv value body s lv' s₁ value' s₂ body' s₃ hlv hvar hval hb hfr
    have hm1 := (mutate_mono ov vt lv s lv' s₁ hlv).2
    have hm2 := (mutate_mono ov vt value s₁ value' s₂ hval).2
    have hm3 := (mutate_mono ov vt body s₂ body' s₃ hb).2
    constructor
    · intro hall
      rw [mutateKind.eq_def]
      dsimp only
      rw [hlv]
      dsimp only
      rw [hvar]
      simp only [Bool.true_eq_false, if_false]
      rw [hval]
      dsimp only
      rw [hb]
      dsimp only
      rw [hall]
      simp
    · intro hall
      rw [mutateKind.eq_def]
      dsimp only
      rw [hlv]
      dsimp only
      rw [hvar]
      simp only [Bool.true_eq_false, if_false]
      rw [hval]
      dsimp only
      rw [hb]
      dsimp only
      rw [hall]
      refine ⟨by simp, ?_⟩
      simp only [Expr.sameAs, Expr.eid, beq_eq_false_iff_ne, ne_eq]
      omega
  · intro ov vt i c tb fb s c' s₁ tb' s₂ fb' s₃ hc ht hf hfr
    have hm1 := (mutate_mono ov vt c s c' s₁ hc).2
    have hm2 := (mutate_mono ov vt tb s₁ tb' s₂ ht).2
    have hm3 := (mutate_mono ov vt fb s₂ fb' s₃ hf).2
    constructor
    · intro hall
      rw [mutateKind.eq_def]
      dsimp only
      rw [hc]
      dsimp only
      rw [ht]
      dsimp only
      rw [hf]
      dsimp only
      rw [hall]
      simp
    · intro hall
      rw [mutateKind.eq_def]
      dsimp only
      rw [hc]
      dsimp only
      rw [ht]
      dsimp only
      rw [hf]
      dsimp only
      rw [hall]
      refine ⟨by simp, ?_⟩
      simp only [Expr.sameAs, Expr.eid, beq_eq_false_iff_ne, ne_eq]
      omega
  · intro ov vt i tup idx s t' s₁ htp hfr
    have hm1 := (mutate_mono ov vt tup s t' s₁ htp).2
    constructor
    · intro hall
      rw [mutateKind.eq_def]
      dsimp only
      rw [htp]
      dsimp only
      rw [hall]
      simp
    · intro hall
      rw [mutateKind.eq_def]
      dsimp only
      rw [htp]
      dsimp only
      rw [hall]
      refine ⟨by simp, ?_⟩
      simp only [Expr.sameAs, Expr.eid, beq_eq_false_iff_ne, ne_eq]
      omega

/-- C3 witness: the unchanged branch of each of the five handlers at concrete
inputs — every handler hands back the original node reference. -/
theorem claim_C3_structural_sharing_witness :
    mutateKind noOverride id (.tuple 0 []) (initM 1) = .ok (.tuple 0 [], initM 1) ∧
    mutateKind noOverride id (.call 0 (.constant 2) [] [] 0) (initM 5) =
      .ok (.call 0 (.constant 2) [] [] 0, ⟨[(2, .constant 2)], 5, [.constant 2], []⟩) ∧
    mutateKind noOverride id (.letE 0 (.var 1 "x" none) (.constant 2) (.constant 3))
        (initM 6) =
      .ok (.letE 0 (.var 1 "x" none) (.constant 2) (.constant 3),
        ⟨[(3, .constant 3), (2, .constant 2), (1, .var 1 "x" none)], 6,
          [.var 1 "x" none, .constant 2, .constant 3], []⟩) ∧
    mutateKind noOverride id (.ifE 0 (.constant 1) (.constant 2) (.constant 3))
        (initM 7) =
      .ok (.ifE 0 (.constant 1) (.constant 2) (.constant 3),
        ⟨[(3, .constant 3), (2, .constant 2), (1, .constant 1)], 7,
          [.constant 1, .constant 2, .constant 3], []⟩) ∧
    mutateKind noOverride id (.tupleGetItem 0 (.constant 4) 0) (initM 9) =
      .ok (.tupleGetItem 0 (.constant 4) 0, ⟨[(4, .constant 4)], 9, [.constant 4], []⟩) := by
  refine ⟨?_, ?_, ?_, ?_, ?_⟩
  · exact (claim_C3_structural_sharing.1 noOverride id 0 [] [] (initM 1) (initM 1)
      (by rw [mutateList]) (by decide)).1 rfl
  · exact (claim_C3_structural_sharing.2.1 noOverride id 0 (.constant 2) [] [] 0
      (initM 5) (.constant 2) ⟨[(2, .constant 2)], 5, [.constant 2], []⟩ []
      ⟨[(2, .constant 2)], 5, [.constant 2], []⟩
      (by simp [mutate, mutateKind, lookupMemo, record, Expr.eid, noOverride, initM])
      (by rw [mutateList]; simp [visitTypeListM]) (by decide)).1 (by decide)
  · exact (claim_C3_structural_sharing.2.2.1 noOverride id 0 (.var 1 "x" none)
      (.constant 2) (.constant 3) (initM 6)
      (.var 1 "x" none) ⟨[(1, .var 1 "x" none)], 6, [.var 1 "x" none], []⟩
      (.constant 2) ⟨[(2, .constant 2), (1, .var 1 "x" none)], 6,
        [.var 1 "x" none, .constant 2], []⟩
      (.constant 3) ⟨[(3, .constant 3), (2, .constant 2), (1, .var 1 "x" none)], 6,
        [.var 1 "x" none, .constant 2, .constant 3], []⟩
      (by simp [mutate, mutateKind, lookupMemo, record, Expr.eid, noOverride, initM])
      rfl
      (by simp [mutate, mutateKind, lookupMemo, record, Expr.eid, noOverride, initM])
      (by simp [mutate, mutateKind, lookupMemo, record, Expr.eid, noOverride, initM])
      (by decide)).1 (by decide)
  · exact (claim_C3_structural_sharing.2.2.2.1 noOverride id 0 (.constant 1)
      (.constant 2) (.constant 3) (initM 7)
      (.constant 1) ⟨[(1, .constant 1)], 7, [.constant 1], []⟩
      (.constant 2) ⟨[(2, .constant 2), (1, .constant 1)], 7,
        [.constant 1, .constant 2], []⟩
      (.constant 3) ⟨[(3, .constant 3), (2, .constant 2), (1, .constant 1)], 7,
        [.constant 1, .constant 2, .constant 3], []⟩
      (by simp [mutate, mutateKind, lookupMemo, record, Expr.eid, noOverride, initM])
      (by simp [mutate, mutateKind, lookupMemo, record, Expr.eid, noOverride, initM])
      (by simp [mutate, mutateKind, lookupMemo, record, Expr.eid, noOverride, initM])
      (by decide)).1 (by decide)
  · exact (claim_C3_structural_sharing.2.2.2.2 noOverride id 0 (.constant 4) 0
      (initM 9) (.constant 4) ⟨[(4, .constant 4)], 9, [.constant 4], []⟩
      (by simp [mutate, mutateKind, lookupMemo, record, Expr.eid, noOverride, initM])
      (by decide)).1 (by decide)

/-- C6: on a `Let` node the two components traverse the children in different,
fixed orders: the read-only visitor's default handler processes the value, then
the bound var, then the body, while the mutator's default handler rewrites the
bound var, then the value, then the body (each node's completion being recorded in
the respective instrumentation log, the bound node last). -/
theorem claim_C6_let_orders :
    ∀ (i a b c n : Nat) (nm : String), a ≠ b → c ≠ a → c ≠ b →
      ((visit (.letE i (.var a nm none) (.constant b) (.constant c)) initV).vlog.map
          Expr.eid = [b, a, c, i]) ∧
      ((mutateDefault (.letE i (.var a nm none) (.constant b) (.constant c))
          (initM n)).map (fun p => p.2.log.map Expr.eid) = .ok [a, b, c, i]) := by
  intro i a b c n nm hab hca hcb
  have hba : b ≠ a := hab.symm
  have hac : a ≠ c := hca.symm
  have hbc : b ≠ c := hcb.symm
  constructor
  · simp [visit, visitKind, lookupCounter, insertCounter, bumpCounter, initV,
      Expr.eid, hab, hba, hac, hbc, hca, hcb]
  · simp [mutateDefault, mutate, mutateKind, lookupMemo, record, Expr.eid,
      Expr.sameAs, Expr.isVar, noOverride, initM, Except.map, hab, hba, hac, hbc,
      hca, hcb]

/-- C6 witness: the two traversal orders at concrete identities. -/
theorem claim_C6_let_orders_witness :
    ((visit (.letE 1 (.var 2 "x" none) (.constant 3) (.constant 4)) initV).vlog.map
        Expr.eid = [3, 2, 4, 1]) ∧
    ((mutateDefault (.letE 1 (.var 2 "x" none) (.constant 3) (.constant 4))
        (initM 50)).map (fun p => p.2.log.map Expr.eid) = .ok [2, 3, 4, 1]) :=
  claim_C6_let_orders 1 2 3 4 50 "x" (by decide) (by decide) (by decide)

/-- C4 (code bug): the default `Function` rewrite never returns the original
reference, even when the rewritten type parameters, value parameters, return type
and body are all unchanged.  On `c4fun` (one parameter, no type params, identity
hook) every child rewrite returns the original child, yet the handler builds and
returns the fresh `c4rebuilt` — carrying the very same children — because the
rebuild condition compares the freshly constructed parameter/type-parameter array
containers to the originals by reference identity (`Array::same_as`), which is
always false; the elementwise `all_ty_params_changed` / `all_params_changed` flags
the source computes for this purpose are dead.  -/
theorem claim_C4_function_always_rebuilds :
    mutateDefault c4fun (initM 50) =
      .ok (c4rebuilt,
        ⟨[(10, c4rebuilt), (2, .constant 2), (1, .var 1 "x" none)], 51,
          [.var 1 "x" none, .constant 2, c4fun], [7]⟩) ∧
    c4rebuilt.sameAs c4fun = false := by
  constructor
  · simp [mutateDefault, mutate, mutateKind, mutateParams, visitTypeListM,
      visitTypeM, c4fun, c4rebuilt, lookupMemo, record, Expr.eid, Expr.sameAs,
      Expr.isVar, arraySameAs, noOverride, initM, bumpFresh]
  · decide

/-- C5 (code bug): identity idempotence of the all-default mutator fails on any
tree containing a `Function` node: mutating the already-minimal `c5root =
Tuple([c5fun])` returns a freshly built tuple around a freshly built function
rather than the original root, because the `Function` handler always rebuilds
(see the C4 theorem) and the changed field then forces the tuple to rebuild
too. -/
theorem claim_C5_identity_idempotence_fails :
    (mutateDefault c5root (initM 60)).map (fun p => (p.1.sameAs c5root, p.1)) =
      .ok (false,
        .tuple 61 [.function 60 none [] none [.var 4 "y" none] 8 (.constant 5) 0]) := by
  simp [mutateDefault, mutate, mutateKind, mutateList, mutateParams, visitTypeListM,
    visitTypeM, c5root, c5fun, lookupMemo, record, Expr.eid, Expr.sameAs, Expr.isVar,
    arraySameAs, allSame, noOverride, initM, bumpFresh, Except.map]

/-- C7: If the rewrite of a `Function` parameter `Var` (or of a `Let`'s bound
`Var`) produces a non-`Var`, the `Downcast<Var>` contract check makes the whole
mutation abort fatally instead of constructing a malformed node. -/
theorem claim_C7_downcast_fatal :
    (∀ (ov : Expr → Option Expr) (vt : Ty → Ty) (i : Nat) (tyAid : Option Nat)
        (tyPs : List Ty) (pAid : Option Nat) (p : Expr) (rest : List Expr) (rty : Ty)
        (body : Expr) (attrs : Nat) (s : MState) (r : Expr) (s₁ : MState),
      mutate ov vt p (visitTypeListM vt tyPs s).2 = .ok (r, s₁) → r.isVar = false →
        mutateKind ov vt (.function i tyAid tyPs pAid (p :: rest) rty body attrs) s =
          .error "Downcast to Var failed") ∧
    (∀ (ov : Expr → Option Expr) (vt : Ty → Ty) (i : Nat) (lv value body : Expr)
        (s : MState) (r : Expr) (s₁ : MState),
      mutate ov vt lv s = .ok (r, s₁) → r.isVar = false →
        mutateKind ov vt (.letE i lv value body) s = .error "Downcast to Var failed") := by
  constructor
  · intro ov vt i tyAid tyPs pAid p rest rty body attrs s r s₁ hp hnv
    rw [mutateKind.eq_def]
    dsimp only
    rw [mutateParams, hp]
    dsimp only
    rw [hnv]
    simp
  · intro ov vt i lv value body s r s₁ hv hnv
    rw [mutateKind.eq_def]
    dsimp only
    rw [hv]
    dsimp only
    rw [hnv]
    simp

/-- The sharing example is a well-formed DAG rendering (the shared constant occurs
twice in the subterm list, both occurrences identical). -/
theorem c1wf : WfDag rootC1 := by
  simp [WfDag, rootC1, tgiA, tgiB, sharedC, Expr.nodes, nodesList, Expr.eid]

/-- The all-default pass over the sharing example, evaluated. -/
theorem c1run : mutate noOverride id rootC1 (initM 100) = .ok (rootC1, c1Final) := by
  simp [mutate, mutateKind, mutateList, rootC1, tgiA, tgiB, sharedC, lookupMemo,
    record, Expr.eid, Expr.sameAs, allSame, noOverride, initM, c1Final]

/-- The small let-binding example is a well-formed DAG rendering. -/
theorem c9wf : ((letEx.nodes).map Expr.eid).Nodup := by
  simp [letEx, Expr.nodes, nodesList, Expr.eid] <;> decide

/-- C1: `Mutate`'s memoization: a cache hit returns the cached result with the
state untouched (no recomputation, no child visits); a cache miss stores the
computed rewrite keyed by the original node's identity; on a well-formed DAG the
kind-specific rewrite runs at most once per distinct identity (the computation
log has pairwise-distinct identities), for every override table and type hook;
and on `root = Tuple([TupleGetItem(shared, 0), TupleGetItem(shared, 0)])` with one
shared `Constant`, a counting mutator observes exactly one `Constant` rewrite. -/
theorem claim_C1_memoized_at_most_once :
    (∀ (ov : Expr → Option Expr) (vt : Ty → Ty) (e : Expr) (s : MState) (r : Expr),
        lookupMemo e.eid s.memo = some r → mutate ov vt e s = .ok (r, s)) ∧
    (∀ (ov : Expr → Option Expr) (vt : Ty → Ty) (e : Expr) (s : MState) (r : Expr)
        (s' : MState), lookupMemo e.eid s.memo = none →
          mutate ov vt e s = .ok (r, s') → lookupMemo e.eid s'.memo = some r) ∧
    (∀ (ov : Expr → Option Expr) (vt : Ty → Ty) (root : Expr) (n : Nat) (r : Expr)
        (s' : MState), WfDag root → mutate ov vt root (initM n) = .ok (r, s') →
          (s'.log.map Expr.eid).Nodup) ∧
    (mutateDefault rootC1 (initM 100)).map
        (fun p => (p.2.log.filter isConstant).length) = .ok 1 := by
  refine ⟨mutate_hit, mutate_store, ?_, ?_⟩
  · intro ov vt root n r s' hwf h
    exact mutate_log_nodup ov vt hwf n h
  · simp [mutateDefault, mutate, mutateKind, mutateList, mutateParams, rootC1, tgiA,
      tgiB, sharedC, lookupMemo, record, Expr.eid, Expr.sameAs, allSame, noOverride,
      isConstant, initM, Except.map]

/-- C1 witness: the three hypothesis-bearing conjuncts at concrete inputs — a
cache hit on a seeded memo, the stored binding after a miss, and the duplicate-free
computation log of the full sharing example. -/
theorem claim_C1_memoized_at_most_once_witness :
    mutate noOverride id sharedC ⟨[(0, sharedC)], 5, [], []⟩
        = .ok (sharedC, ⟨[(0, sharedC)], 5, [], []⟩) ∧
    lookupMemo sharedC.eid (⟨[(0, sharedC)], 7, [sharedC], []⟩ : MState).memo
        = some sharedC ∧
    (c1Final.log.map Expr.eid).Nodup := by
  refine ⟨?_, ?_, ?_⟩
  · exact claim_C1_memoized_at_most_once.1 noOverride id sharedC _ sharedC
      (by simp [lookupMemo, sharedC, Expr.eid])
  · exact claim_C1_memoized_at_most_once.2.1 noOverride id sharedC (initM 7) sharedC _
      (by simp [lookupMemo, initM])
      (by simp [mutate, mutateKind, lookupMemo, record, sharedC, Expr.eid, noOverride,
            initM])
  · exact claim_C1_memoized_at_most_once.2.2.1 noOverride id rootC1 100 rootC1 c1Final
      c1wf c1run

/-- C9: the memo cache is append-only over the lifetime of one mutator instance:
a cache hit leaves the state (hence the cache) unchanged; every successful
operation extends the cache by prepending (the old cache is a suffix of the new
one — nothing is ever removed); a miss inserts the binding for the mutated node's
identity; and on a well-formed DAG starting from a fresh instance the final keys
are pairwise distinct, so no binding is ever overwritten during the pass. -/
theorem claim_C9_memo_append_only :
    (∀ (ov : Expr → Option Expr) (vt : Ty → Ty) (e : Expr) (s : MState) (r : Expr),
        lookupMemo e.eid s.memo = some r → mutate ov vt e s = .ok (r, s)) ∧
    (∀ (ov : Expr → Option Expr) (vt : Ty → Ty) (e : Expr) (s : MState) (r : Expr)
        (s' : MState), mutate ov vt e s = .ok (r, s') → s.memo <:+ s'.memo) ∧
    (∀ (ov : Expr → Option Expr) (vt : Ty → Ty) (e : Expr) (s : MState) (r : Expr)
        (s' : MState), lookupMemo e.eid s.memo = none →
          mutate ov vt e s = .ok (r, s') → lookupMemo e.eid s'.memo = some r) ∧
    (∀ (ov : Expr → Option Expr) (vt : Ty → Ty) (root : Expr) (n : Nat) (r : Expr)
        (s' : MState), WfDag root → mutate ov vt root (initM n) = .ok (r, s') →
          (s'.memo.map Prod.fst).Nodup) := by
  refine ⟨mutate_hit, ?_, mutate_store, ?_⟩
  · intro ov vt e s r s' h
    exact (mutate_mono ov vt e s r s' h).1
  · intro ov vt root n r s' hwf h
    exact mutate_memo_nodup ov vt hwf n h

/-- C9 witness: the four conjuncts at concrete inputs — a hit on a seeded cache,
the suffix relation and the inserted binding over a full run on `letEx`, and the
duplicate-free final keys of that run. -/
theorem claim_C9_memo_append_only_witness :
    mutate noOverride id (.constant 6) ⟨[(6, .constant 6)], 9, [], []⟩
        = .ok (.constant 6, ⟨[(6, .constant 6)], 9, [], []⟩) ∧
    (initM 90).memo <:+ c9Final.memo ∧
    lookupMemo letEx.eid c9Final.memo = some letEx ∧
    (c9Final.memo.map Prod.fst).Nodup := by
  have hrun : mutate noOverride id letEx (initM 90) = .ok (letEx, c9Final) := by
    simp [mutate, mutateKind, letEx, lookupMemo, record, Expr.eid, Expr.sameAs,
      Expr.isVar, noOverride, initM, c9Final]
  refine ⟨?_, ?_, ?_, ?_⟩
  · exact claim_C9_memo_append_only.1 noOverride id (.constant 6) _ (.constant 6)
      (by simp [lookupMemo, Expr.eid])
  · exact claim_C9_memo_append_only.2.1 noOverride id letEx (initM 90) letEx c9Final hrun
  · exact claim_C9_memo_append_only.2.2.1 noOverride id letEx (initM 90) letEx c9Final
      (by simp [lookupMemo, initM]) hrun
  · exact claim_C9_memo_append_only.2.2.2 noOverride id letEx 90 letEx c9Final
      (wf_of_nodup_eids c9wf) hrun

/-- C2: the visitor's dedup contract: on a counter hit the whole state change is
the counter bump (the kind-specific callback does not run — the log and everything
else are untouched) and the count goes from `n` to `n + 1`; on a miss (within a
well-formed traversal) the callback runs, the node ends up in the callback log and
its identity is recorded with counter 1; and over a whole traversal of a
well-formed DAG from a fresh instance, every distinct node's callback runs exactly
once, independent of its in-degree. -/
theorem claim_C2_visitor_dedup :
    (∀ (e : Expr) (s : VState) (n : Nat), lookupCounter e.eid s.counter = some n →
        visit e s = { s with counter := bumpCounter e.eid s.counter } ∧
        lookupCounter e.eid (visit e s).counter = some (n + 1)) ∧
    (∀ (root e : Expr) (s : VState), WfDag root → e ∈ root.nodes → VInv root s →
        lookupCounter e.eid s.counter = none →
          e ∈ (visit e s).vlog ∧ lookupCounter e.eid (visit e s).counter = some 1) ∧
    (∀ (root : Expr), WfDag root →
        ∀ x ∈ root.nodes, ((visit root initV).vlog.map Expr.eid).count x.eid = 1) := by
  refine ⟨?_, ?_, ?_⟩
  · intro e s n h
    have hv : visit e s = { s with counter := bumpCounter e.eid s.counter } := by
      rw [visit, h]
    refine ⟨hv, ?_⟩
    rw [hv]
    exact lookupCounter_bump_self h
  · intro root e s hwf he hinv hl
    obtain ⟨-, -, -, hcomp, hone⟩ := visit_main root hwf e he s hinv
    exact ⟨hcomp e (mem_nodes_self e), hone hl⟩
  · intro root hwf x hx
    obtain ⟨⟨hnd, -, -, -⟩, -, -, hcomp, -⟩ :=
      visit_main root hwf root (mem_nodes_self root) initV (initV_inv root)
    exact List.count_eq_one_of_mem hnd (List.mem_map_of_mem Expr.eid (hcomp x hx))

/-- C2 witness: the three conjuncts at concrete inputs — a repeat visit of the
shared constant only bumps its counter to 2, a first visit logs it and records
count 1, and in the full sharing example every distinct node (here the shared
constant) is processed exactly once. -/
theorem claim_C2_visitor_dedup_witness :
    (visit sharedC ⟨[(0, 1)], [sharedC]⟩ = ⟨[(0, 2)], [sharedC]⟩ ∧
      lookupCounter sharedC.eid (visit sharedC ⟨[(0, 1)], [sharedC]⟩).counter
        = some 2) ∧
    (sharedC ∈ (visit sharedC initV).vlog ∧
      lookupCounter sharedC.eid (visit sharedC initV).counter = some 1) ∧
    ((visit rootC1 initV).vlog.map Expr.eid).count sharedC.eid = 1 := by
  refine ⟨?_, ?_, ?_⟩
  · have h := claim_C2_visitor_dedup.1 sharedC ⟨[(0, 1)], [sharedC]⟩ 1
      (by simp [lookupCounter, sharedC, Expr.eid])
    exact ⟨by rw [h.1]; simp [bumpCounter, sharedC, Expr.eid], h.2⟩
  · exact claim_C2_visitor_dedup.2.1 sharedC sharedC initV
      (wf_of_nodup_eids (by simp [sharedC, Expr.nodes, Expr.eid] <;> decide))
      (mem_nodes_self sharedC) (initV_inv sharedC) (by simp [lookupCounter, initV])
  · exact claim_C2_visitor_dedup.2.2 rootC1 c1wf sharedC
      (by simp [rootC1, tgiA, tgiB, sharedC, Expr.nodes, nodesList])

/-- C7 witness: the override `ovC7` rewrites the parameter (resp. bound) `Var` of
`c7fun` (resp. `c7let`) into a `Constant`, and the handler aborts fatally on
both. -/
theorem claim_C7_downcast_fatal_witness :
    mutateKind ovC7 id (.function 30 (some 300) [] (some 301) ((.var 1 "x" none) :: [])
        9 (.constant 6) 0) (initM 40) = .error "Downcast to Var failed" ∧
    mutateKind ovC7 id (.letE 31 (.var 1 "x" none) (.constant 7) (.constant 8))
      (initM 40) = .error "Downcast to Var failed" := by
  constructor
  · refine claim_C7_downcast_fatal.1 ovC7 id 30 (some 300) [] (some 301)
      (.var 1 "x" none) [] 9 (.constant 6) 0 (initM 40) (.constant 99)
      ⟨[(1, .constant 99)], 40, [.var 1 "x" none], []⟩ ?_ rfl
    simp [visitTypeListM, mutate, lookupMemo, initM, Expr.eid, ovC7, record]
  · refine claim_C7_downcast_fatal.2 ovC7 id 31 (.var 1 "x" none) (.constant 7)
      (.constant 8) (initM 40) (.constant 99)
      ⟨[(1, .constant 99)], 40, [.var 1 "x" none], []⟩ ?_ rfl
    simp [mutate, lookupMemo, initM, Expr.eid, ovC7, record]

end TvmRelay
